import Mathlib

/-!
# Banknote dispenser (`src/index.js`)

A shallow embedding of the core of `src/index.js` and the verification of its
specification.

Modelling decisions.

* JavaScript numbers are binary64 floating-point numbers.  The model covers the
  integer-valued ones and represents them by `Int`.  Comparisons and `%` are exact on
  them.  The result of `+`, `-` and `*` is the exact result rounded to the nearest
  binary64 (`roundNumber`): it is exact up to `2^53` in absolute value and keeps 53
  significant bits beyond.  `Math.floor(r / v)` rounds the exact quotient to the nearest
  binary64 before the floor is taken (`floorDivide`).
* Not modelled: the division by `value = 0` (it yields `Infinity` or `NaN`) and the
  overflow to `Infinity` beyond the largest binary64 (about `2^1024`).
* A record is an object `{ value, count, minCount }` whose `count` and `minCount`
  may be absent (`undefined`); the destructuring defaults `count = 0, minCount = 0`
  of `getAvailableCount` are applied there.  A plan entry `{ value, count }` is such
  an object without `minCount`.
* `Array.prototype.sort` sorts the array it is called on in place and returns it.
  Every function that sorts therefore returns, next to its result, the caller's
  array as the call leaves it (`Call.array`).
* `throw new Error(msg)` is modelled as `Except.error msg`.
-/

namespace Atm

/-- A denomination record `{ value, count, minCount }`; also a plan entry `{ value, count }`. -/
structure Banknote where
  value : Int
  count : Option Int := none
  minCount : Option Int := none
deriving DecidableEq, Repr

/-- The result of a call together with the caller's inventory array after the call. -/
structure Call (α : Type) where
  result : α
  array : List Banknote

/-- The constant `Number.MAX_SAFE_INTEGER`, `2^53 - 1`: up to it, in absolute value, the
arithmetic of the source on integers is exact. -/
def maxSafeInteger : Int := 9007199254740991

/-- The integer nearest to `num / den`, the even one of the two when `num / den` lies
halfway between them (the rounding mode of binary64 arithmetic). -/
def roundHalfEven (num den : Nat) : Nat :=
  let q := num / den
  let rest := num % den
  if 2 * rest < den then q
  else if den < 2 * rest then q + 1
  else if q % 2 = 0 then q else q + 1

/-- The spacing of the binary64 numbers around `n`: the least power of two `u`, from `u`
on, with `n < 2^53 * u`.  The search is bounded as the exponent of a binary64 is. -/
def spacing (fuel : Nat) (n u : Nat) : Nat :=
  match fuel with
  | 0 => u
  | fuel + 1 => if n < 9007199254740992 * u then u else spacing fuel n (2 * u)

/-- The binary64 number nearest to the natural number `n`: `n` itself up to `2^53`, and
beyond that the nearest multiple of the spacing, which keeps 53 significant bits. -/
def roundNat (n : Nat) : Nat :=
  if n ≤ 9007199254740992 then n
  else roundHalfEven n (spacing 1100 n 1) * spacing 1100 n 1

/-- The binary64 number nearest to the integer `x`: the result of an addition,
subtraction or multiplication of integer-valued numbers whose exact result is `x`. -/
def roundNumber (x : Int) : Int :=
  if 0 ≤ x then (roundNat x.toNat : Int) else -(roundNat (-x).toNat : Int)

/-- The power of two `a`, from `a` on, that scales `n / d` up to at least `2^52`. -/
def scaleUp (fuel : Nat) (n d a : Nat) : Nat :=
  match fuel with
  | 0 => a
  | fuel + 1 => if 4503599627370496 * d ≤ n * a then a else scaleUp fuel n d (2 * a)

/-- The power of two `b`, from `b` on, that scales `n / d` down to less than `2^53`. -/
def scaleDown (fuel : Nat) (n d b : Nat) : Nat :=
  match fuel with
  | 0 => b
  | fuel + 1 => if n < 9007199254740992 * d * b then b else scaleDown fuel n d (2 * b)

/-- The value of `Math.floor(r / v)` for integers `r` and `v ≠ 0`: the exact quotient
`|r| / |v|` is rounded to the nearest binary64, that is to `m * b / a` where `a` and `b`
are the powers of two (one of them 1) that bring the quotient into `[2^52, 2^53)` and `m`
is the scaled quotient rounded half to even; the sign is restored and the floor taken. -/
def floorDivide (r v : Int) : Int :=
  if r = 0 then 0
  else
    let n := r.natAbs
    let d := v.natAbs
    let a := if n < 4503599627370496 * d then scaleUp 1100 n d 1 else 1
    let b := if n < 4503599627370496 * d then 1 else scaleDown 1100 n d 1
    let m := roundHalfEven (n * a) (d * b)
    if decide (0 < r) = decide (0 < v) then ((m * b / a : Nat) : Int)
    else -(((m * b + a - 1) / a : Nat) : Int)

/-- Comparator `({ value: a }, { value: b }) => (a > b ? 1 : -1)`. -/
def sortBanknotesByAsc (x y : Banknote) : Int :=
  if x.value > y.value then 1 else -1

/-- Comparator `({ value: a }, { value: b }) => (a > b ? -1 : 1)`. -/
def sortBanknotesByDesc (x y : Banknote) : Int :=
  if x.value > y.value then -1 else 1

/-- Insertion of `x` into an already sorted array: `x` goes in front of the first
element `y` that the comparator orders after it (`cmp x y < 0`). -/
def sortInsert (cmp : Banknote → Banknote → Int) (x : Banknote) : List Banknote → List Banknote
  | [] => [x]
  | y :: ys => if cmp x y < 0 then x :: y :: ys else y :: sortInsert cmp x ys

/-- The array method `sort(cmp)`, as an insertion sort driven by the comparator.  For
records with pairwise distinct values both comparators of the source are consistent
and every sorting algorithm yields this same array; for equal values the comparators
are inconsistent and ECMAScript leaves the order to the engine. -/
def arraySort (cmp : Banknote → Banknote → Int) : List Banknote → List Banknote
  | [] => []
  | x :: xs => sortInsert cmp x (arraySort cmp xs)

/-- The usable count: `({ count = 0, minCount = 0 }) => count > minCount ? count - minCount : 0`. -/
def getAvailableCount (banknote : Banknote) : Int :=
  let count := banknote.count.getD 0
  let minCount := banknote.minCount.getD 0
  if count > minCount then roundNumber (count - minCount) else 0

/-- The test `Boolean(getAvailableCount(banknote))`: true unless the usable count is `0`. -/
def hasAvailableCount (banknote : Banknote) : Bool :=
  getAvailableCount banknote != 0

/-- The record found by `banknotes.sort(sortBanknotesByAsc).find(hasAvailableCount)`. -/
def getMinAvailableBanknote (banknotes : List Banknote) : Call (Option Banknote) :=
  let sorted := arraySort sortBanknotesByAsc banknotes
  { result := sorted.find? hasAvailableCount, array := sorted }

/-- The value of the smallest usable record, `0` when there is none. -/
def getMinAvailableValue (banknotes : List Banknote) : Call Int :=
  let minAvailableBanknote := getMinAvailableBanknote banknotes
  { result := match minAvailableBanknote.result with
      | some b => b.value
      | none => 0,
    array := minAvailableBanknote.array }

/-- The sum `acc + value * availableCount` over the records in the order of the array,
from `0`; the product and the sum are rounded at every step. -/
def getMaxAmount (banknotes : List Banknote) : Int :=
  banknotes.foldl
    (fun acc banknote =>
      roundNumber (acc + roundNumber (banknote.value * getAvailableCount banknote))) 0

/-- The test `amount > 0 && minAvailableValue > 0 && amount % minAvailableValue === 0`;
`%` is the remainder of the truncated division, which is exact. -/
def isValidAmount (amount : Int) (banknotes : List Banknote) : Call Bool :=
  let minAvailableValue := getMinAvailableValue banknotes
  { result := decide (amount > 0) && decide (minAvailableValue.result > 0)
      && decide (Int.tmod amount minAvailableValue.result = 0),
    array := minAvailableValue.array }

/-- The pair `{ floor, ceil }` returned by `getValidAmounts`. -/
structure ValidAmounts where
  floor : Int
  ceil : Int
deriving DecidableEq, Repr

/-- The nearest amounts below and above `amount`, `{ floor: 0, ceil: 0 }` when the
smallest usable value is `0`; the subtraction and the addition are rounded. -/
def getValidAmounts (amount : Int) (banknotes : List Banknote) : Call ValidAmounts :=
  let minAvailableValue := getMinAvailableValue banknotes
  if minAvailableValue.result = 0 then
    { result := { floor := 0, ceil := 0 }, array := minAvailableValue.array }
  else
    let remainder := Int.tmod amount minAvailableValue.result
    let floor := roundNumber (amount - remainder)
    let ceil := roundNumber (floor + minAvailableValue.result)
    { result := { floor := floor, ceil := ceil }, array := minAvailableValue.array }

/-- The accumulator `{ banknotes, remainder }` of the `reduce` in `getBanknotes`. -/
structure Acc where
  banknotes : List Banknote
  remainder : Int
deriving DecidableEq, Repr

/-- The callback of the `reduce` in `getBanknotes`; the quotient, the product and the
difference are rounded as the source computes them. -/
def reducer (acc : Acc) (banknote : Banknote) : Acc :=
  let value := banknote.value
  let availableCount := getAvailableCount banknote
  if value > acc.remainder || availableCount == 0 then acc
  else
    let neededCount := floorDivide acc.remainder value
    let count := if neededCount > availableCount then availableCount else neededCount
    { banknotes := acc.banknotes ++ [{ value := value, count := some count }],
      remainder := roundNumber (acc.remainder - roundNumber (value * count)) }

/-- The accumulator after the `reduce` over the array sorted descending. -/
def buildPlan (requestedAmount : Int) (availableBanknotes : List Banknote) : Acc :=
  (arraySort sortBanknotesByDesc availableBanknotes).foldl reducer
    { banknotes := [], remainder := requestedAmount }

/-- The function `getBanknotes({ requestedAmount, availableBanknotes })`. -/
def getBanknotes (requestedAmount : Int) (availableBanknotes : List Banknote) :
    Call (Except String (List Banknote)) :=
  let result := buildPlan requestedAmount availableBanknotes
  { result :=
      if getMaxAmount result.banknotes ≠ requestedAmount then
        Except.error "Not enought banknotes"
      else Except.ok result.banknotes,
    array := arraySort sortBanknotesByDesc availableBanknotes }

/-- The exact total `Σ value × count` of a plan. -/
def planTotal (plan : List Banknote) : Int :=
  (plan.map fun e => e.value * e.count.getD 0).sum

/-- The inventories `atmList[0]` … `atmList[4]` of the test fixtures. -/
def atmList : List (List Banknote) :=
  [ [ { value := 5000, count := some 40 }, { value := 1000, count := some 40 },
      { value := 200, count := some 40, minCount := some 2 }, { value := 100, count := some 40 } ],
    [ { value := 5000, count := some 0 }, { value := 1000, count := some 0 },
      { value := 200, count := some 0, minCount := some 2 }, { value := 100, count := some 0 } ],
    [ { value := 5000, count := some 1 }, { value := 1000, count := some 1 },
      { value := 200, count := some 2, minCount := some 2 }, { value := 100, count := some 1 } ],
    [ { value := 5000, count := some 5 }, { value := 1000, count := some 7 },
      { value := 200, count := some 23, minCount := some 2 }, { value := 100, count := some 12 } ],
    [ { value := 5000, count := some 1 }, { value := 1000, count := some 2 },
      { value := 200, count := some 3, minCount := some 2 }, { value := 100, count := some 40 } ] ]

/-- The inventory hard-coded in `runAtm`. -/
def runAtmBanknotes : List Banknote :=
  [ { value := 5000, count := some 40 }, { value := 1000, count := some 40 },
    { value := 200, count := some 40, minCount := some 2 }, { value := 100, count := some 40 } ]

/-- The usable count in the words of the specification, an exact integer:
`count − reserve` if `count > reserve`, else `0`. -/
def usableCount (d : Banknote) : Int :=
  if d.count.getD 0 > d.minCount.getD 0 then d.count.getD 0 - d.minCount.getD 0 else 0

/-- The exact total `Σ value × usable count` of an inventory, `maxDispensable` in the
words of the specification. -/
def maxDispensable (inventory : List Banknote) : Int :=
  (inventory.map fun d => d.value * usableCount d).sum

/-- The greedy walk in the words of the specification, in exact arithmetic, over the
records in the order given, with the running remainder `r`: a record with usable count
`u > 0` and `value ≤ r` contributes the entry `{ value, min(floor(r / value), u) }` and
`r` decreases by `value ×` that count; every other record contributes no entry and
leaves `r` unchanged.  The result is the plan and the remainder left. -/
def greedyWalk (r : Int) : List Banknote → List Banknote × Int
  | [] => ([], r)
  | d :: ds =>
    if 0 < usableCount d ∧ d.value ≤ r then
      let taken := min ⌊(r : ℚ) / (d.value : ℚ)⌋ (usableCount d)
      let rest := greedyWalk (r - d.value * taken) ds
      ({ value := d.value, count := some taken } :: rest.1, rest.2)
    else greedyWalk r ds

/-- A choice of counts for the records of an inventory, one count `k` per record in the
order of the list with `0 ≤ k ≤ usable(record)`, whose exact total `Σ value × k` is
`amount`. -/
def Coverable (amount : Int) (inventory : List Banknote) : Prop :=
  ∃ counts : List Int,
    List.Forall₂ (fun d k => 0 ≤ k ∧ k ≤ usableCount d) inventory counts ∧
    (List.zipWith (fun d k => d.value * k) inventory counts).sum = amount

/-- The callback of the `reduce` with every operation exact (floor division, product and
difference in the integers): the step the source performs while its numbers stay within
the safe integers. -/
def reducerExact (acc : Acc) (banknote : Banknote) : Acc :=
  let value := banknote.value
  let availableCount := usableCount banknote
  if value > acc.remainder || availableCount == 0 then acc
  else
    let neededCount := Int.fdiv acc.remainder value
    let count := if neededCount > availableCount then availableCount else neededCount
    { banknotes := acc.banknotes ++ [{ value := value, count := some count }],
      remainder := acc.remainder - value * count }

/-! ## Rounding to binary64 -/

theorem roundHalfEven_ge (num den : Nat) : num / den ≤ roundHalfEven num den := by
  unfold roundHalfEven
  simp only []
  split_ifs <;> omega

theorem roundHalfEven_le (num den : Nat) : roundHalfEven num den ≤ num / den + 1 := by
  unfold roundHalfEven
  simp only []
  split_ifs <;> omega

theorem roundHalfEven_of_lt {num den : Nat} (h : 2 * (num % den) < den) :
    roundHalfEven num den = num / den := by
  unfold roundHalfEven
  simp only []
  rw [if_pos h]

theorem roundHalfEven_one (n : Nat) : roundHalfEven n 1 = n := by
  rw [roundHalfEven_of_lt (by omega), Nat.div_one]

theorem le_spacing (fuel n u : Nat) : u ≤ spacing fuel n u := by
  induction fuel generalizing u with
  | zero => exact Nat.le_refl u
  | succ fuel ih =>
    unfold spacing
    split
    · exact Nat.le_refl u
    · have := ih (2 * u)
      omega

theorem spacing_mul_le (fuel n u : Nat) (h : 4503599627370496 * u ≤ n) :
    4503599627370496 * spacing fuel n u ≤ n := by
  induction fuel generalizing u with
  | zero => exact h
  | succ fuel ih =>
    unfold spacing
    split
    · exact h
    · exact ih (2 * u) (by omega)

theorem roundNat_of_le {n : Nat} (h : n ≤ 9007199254740992) : roundNat n = n := by
  unfold roundNat
  rw [if_pos h]

theorem roundNat_ge {n : Nat} (h : 9007199254740992 < n) : 9007199254740992 ≤ roundNat n := by
  unfold roundNat
  rw [if_neg (by omega)]
  have hs2 : 2 ≤ spacing 1100 n 1 := by
    have h1 : spacing 1100 n 1 = spacing 1099 n 2 := by
      rw [show (1100 : Nat) = 1099 + 1 from rfl, spacing, if_neg (by omega)]
    rw [h1]
    exact le_spacing 1099 n 2
  have hs := spacing_mul_le 1100 n 1 (by omega)
  have hq : 4503599627370496 ≤ n / spacing 1100 n 1 :=
    (Nat.le_div_iff_mul_le (by omega)).mpr hs
  have hr := roundHalfEven_ge n (spacing 1100 n 1)
  calc 9007199254740992 = 4503599627370496 * 2 := by norm_num
    _ ≤ roundHalfEven n (spacing 1100 n 1) * spacing 1100 n 1 :=
        Nat.mul_le_mul (le_trans hq hr) hs2

theorem roundNumber_of_safe {x : Int} (h1 : -9007199254740992 ≤ x)
    (h2 : x ≤ 9007199254740992) : roundNumber x = x := by
  unfold roundNumber
  split
  · rw [roundNat_of_le (by omega)]
    omega
  · rw [roundNat_of_le (by omega)]
    omega

theorem roundNumber_pos {x : Int} (h : 0 < x) : 0 < roundNumber x := by
  by_cases hx : x ≤ 9007199254740992
  · rw [roundNumber_of_safe (by omega) hx]
    exact h
  · unfold roundNumber
    rw [if_pos (by omega)]
    have := @roundNat_ge x.toNat (by omega)
    omega

theorem roundNumber_ge {x : Int} (h : 9007199254740992 ≤ x) :
    9007199254740992 ≤ roundNumber x := by
  by_cases hx : x ≤ 9007199254740992
  · rw [roundNumber_of_safe (by omega) hx]
    exact h
  · unfold roundNumber
    rw [if_pos (by omega)]
    have := @roundNat_ge x.toNat (by omega)
    omega

theorem le_scaleUp (fuel n d a : Nat) : a ≤ scaleUp fuel n d a := by
  induction fuel generalizing a with
  | zero => exact Nat.le_refl a
  | succ fuel ih =>
    unfold scaleUp
    split
    · exact Nat.le_refl a
    · have := ih (2 * a)
      omega

theorem scaleUp_spec (fuel n d a : Nat) (h : 4503599627370496 * d ≤ n * a * 2 ^ fuel) :
    4503599627370496 * d ≤ n * scaleUp fuel n d a := by
  induction fuel generalizing a with
  | zero => simpa [scaleUp] using h
  | succ fuel ih =>
    unfold scaleUp
    split
    · assumption
    · apply ih (2 * a)
      calc 4503599627370496 * d ≤ n * a * 2 ^ (fuel + 1) := h
        _ = n * (2 * a) * 2 ^ fuel := by rw [Nat.pow_succ]; ring

theorem le_scaleDown (fuel n d b : Nat) : b ≤ scaleDown fuel n d b := by
  induction fuel generalizing b with
  | zero => exact Nat.le_refl b
  | succ fuel ih =>
    unfold scaleDown
    split
    · exact Nat.le_refl b
    · have := ih (2 * b)
      omega

theorem scaleDown_mul_le (fuel n d b : Nat) (h : 4503599627370496 * d * b ≤ n) :
    4503599627370496 * d * scaleDown fuel n d b ≤ n := by
  induction fuel generalizing b with
  | zero => exact h
  | succ fuel ih =>
    unfold scaleDown
    split
    · exact h
    · next hc =>
      apply ih (2 * b)
      have h1 : 9007199254740992 * d * b ≤ n := by omega
      calc 4503599627370496 * d * (2 * b) = 9007199254740992 * d * b := by ring
        _ ≤ n := h1

theorem floorDivide_of_pos {r v : Int} (hv : 0 < v) (hr : 0 < r) :
    floorDivide r v =
      ((roundHalfEven
          (r.natAbs * (if r.natAbs < 4503599627370496 * v.natAbs
            then scaleUp 1100 r.natAbs v.natAbs 1 else 1))
          (v.natAbs * (if r.natAbs < 4503599627370496 * v.natAbs
            then 1 else scaleDown 1100 r.natAbs v.natAbs 1))
        * (if r.natAbs < 4503599627370496 * v.natAbs
            then 1 else scaleDown 1100 r.natAbs v.natAbs 1)
        / (if r.natAbs < 4503599627370496 * v.natAbs
            then scaleUp 1100 r.natAbs v.natAbs 1 else 1) : Nat) : Int) := by
  unfold floorDivide
  rw [if_neg (by omega)]
  simp only []
  rw [if_pos (by simp [hv, hr])]

theorem quotient_floor_pos {n d : Nat} (hd : 0 < d) (hle : d ≤ n) :
    1 ≤ roundHalfEven
          (n * (if n < 4503599627370496 * d then scaleUp 1100 n d 1 else 1))
          (d * (if n < 4503599627370496 * d then 1 else scaleDown 1100 n d 1))
        * (if n < 4503599627370496 * d then 1 else scaleDown 1100 n d 1)
        / (if n < 4503599627370496 * d then scaleUp 1100 n d 1 else 1) := by
  by_cases hc : n < 4503599627370496 * d
  · simp only [if_pos hc, Nat.mul_one]
    have ha := le_scaleUp 1100 n d 1
    have hge := roundHalfEven_ge (n * scaleUp 1100 n d 1) d
    have hq : scaleUp 1100 n d 1 ≤ n * scaleUp 1100 n d 1 / d := by
      apply (Nat.le_div_iff_mul_le hd).mpr
      rw [Nat.mul_comm]
      exact Nat.mul_le_mul_right _ hle
    apply (Nat.le_div_iff_mul_le (by omega)).mpr
    omega
  · simp only [if_neg hc, Nat.mul_one, Nat.div_one]
    have hb := le_scaleDown 1100 n d 1
    have hinv := scaleDown_mul_le 1100 n d 1 (by omega)
    have hge := roundHalfEven_ge n (d * scaleDown 1100 n d 1)
    have hq : 4503599627370496 ≤ n / (d * scaleDown 1100 n d 1) := by
      apply (Nat.le_div_iff_mul_le (Nat.mul_pos hd (by omega))).mpr
      rw [← Nat.mul_assoc]
      exact hinv
    calc 1 = 1 * 1 := rfl
      _ ≤ roundHalfEven n (d * scaleDown 1100 n d 1) * scaleDown 1100 n d 1 :=
        Nat.mul_le_mul (by omega) hb

theorem quotient_floor_eq {n d : Nat} (hd : 0 < d) (hle : d ≤ n)
    (hn : n < 9007199254740992) :
    roundHalfEven
          (n * (if n < 4503599627370496 * d then scaleUp 1100 n d 1 else 1))
          (d * (if n < 4503599627370496 * d then 1 else scaleDown 1100 n d 1))
        * (if n < 4503599627370496 * d then 1 else scaleDown 1100 n d 1)
        / (if n < 4503599627370496 * d then scaleUp 1100 n d 1 else 1) = n / d := by
  by_cases hc : n < 4503599627370496 * d
  · simp only [if_pos hc, Nat.mul_one]
    have ha1 := le_scaleUp 1100 n d 1
    have hspec : 4503599627370496 * d ≤ n * scaleUp 1100 n d 1 := by
      apply scaleUp_spec
      have h1 : (4503599627370496 : Nat) ≤ 2 ^ 1100 := by norm_num
      calc 4503599627370496 * d ≤ 2 ^ 1100 * n := Nat.mul_le_mul h1 hle
        _ = n * 1 * 2 ^ 1100 := by ring
    generalize scaleUp 1100 n d 1 = a at ha1 hspec ⊢
    -- the scale is more than half the divisor
    have hna : n * a < 9007199254740992 * a := Nat.mul_lt_mul_of_pos_right hn (by omega)
    have hda : d < 2 * a := by omega
    have hn1 := Nat.div_add_mod n d
    have hf := Nat.mod_lt n hd
    have hN1 := Nat.div_add_mod (n * a) d
    have hR := Nat.mod_lt (n * a) hd
    have hge := roundHalfEven_ge (n * a) d
    have hle2 := roundHalfEven_le (n * a) d
    have hexp : n * a = d * (n / d) * a + n % d * a := by
      rw [← Nat.add_mul, hn1]
    apply Nat.div_eq_of_lt_le
    · -- the floor is not below the exact one
      have hq : n / d * a ≤ n * a / d := by
        apply (Nat.le_div_iff_mul_le hd).mpr
        calc n / d * a * d = d * (n / d) * a := by ring
          _ ≤ n * a := by omega
      omega
    · -- and it does not reach the next integer
      have hlt : n * a / d < (n / d + 1) * a := by
        apply (Nat.div_lt_iff_lt_mul hd).mpr
        have h2 : n % d * a < d * a := Nat.mul_lt_mul_of_pos_right hf (by omega)
        calc n * a = d * (n / d) * a + n % d * a := hexp
          _ < d * (n / d) * a + d * a := by omega
          _ = (n / d + 1) * a * d := by ring
      by_contra hcon
      have hup : roundHalfEven (n * a) d = n * a / d + 1 := by omega
      have hM : n * a / d + 1 = (n / d + 1) * a := by omega
      have hrest : d ≤ 2 * (n * a % d) := by
        by_contra h3
        rw [roundHalfEven_of_lt (by omega)] at hup
        omega
      -- then the rest is at most d - a, so d ≤ 2 * rest forces 2 * a ≤ d
      have h4 : d * (n * a / d) + d = d * (n / d) * a + d * a := by
        calc d * (n * a / d) + d = d * (n * a / d + 1) := by ring
          _ = d * ((n / d + 1) * a) := by rw [hM]
          _ = d * (n / d) * a + d * a := by ring
      have h5 : n % d * a + a ≤ d * a := by
        calc n % d * a + a = (n % d + 1) * a := by ring
          _ ≤ d * a := Nat.mul_le_mul_right a (by omega)
      omega
  · simp only [if_neg hc, Nat.mul_one, Nat.div_one]
    have hd1 : d = 1 := by omega
    subst hd1
    have hb : scaleDown 1100 n 1 1 = 1 := by
      rw [show (1100 : Nat) = 1099 + 1 from rfl, scaleDown, if_pos (by omega)]
    rw [hb]
    simp [roundHalfEven_one]

theorem floorDivide_pos {r v : Int} (hv : 0 < v) (hle : v ≤ r) : 1 ≤ floorDivide r v := by
  rw [floorDivide_of_pos hv (by omega)]
  have := @quotient_floor_pos r.natAbs v.natAbs (by omega) (by omega)
  exact_mod_cast this

theorem floorDivide_eq_fdiv {r v : Int} (hv : 0 < v) (hle : v ≤ r)
    (hr : r ≤ maxSafeInteger) : floorDivide r v = Int.fdiv r v := by
  unfold maxSafeInteger at hr
  rw [floorDivide_of_pos hv (by omega), Int.fdiv_eq_ediv r (le_of_lt hv)]
  rw [@quotient_floor_eq r.natAbs v.natAbs (by omega) (by omega) (by omega)]
  have h1 : ((r.natAbs : Nat) : Int) = r := Int.natAbs_of_nonneg (by omega)
  have h2 : ((v.natAbs : Nat) : Int) = v := Int.natAbs_of_nonneg (by omega)
  rw [Int.ofNat_ediv, h1, h2]

/-! ## Sorting -/

theorem sortInsert_perm (cmp : Banknote → Banknote → Int) (x : Banknote) (xs : List Banknote) :
    (sortInsert cmp x xs).Perm (x :: xs) := by
  induction xs with
  | nil => exact List.Perm.refl _
  | cons y ys ih =>
    unfold sortInsert
    split
    · exact List.Perm.refl _
    · exact (List.Perm.cons y ih).trans (List.Perm.swap x y ys)

theorem arraySort_perm (cmp : Banknote → Banknote → Int) (xs : List Banknote) :
    (arraySort cmp xs).Perm xs := by
  induction xs with
  | nil => exact List.Perm.refl _
  | cons x xs ih =>
    unfold arraySort
    exact (sortInsert_perm cmp x _).trans (List.Perm.cons x ih)

theorem mem_arraySort {cmp : Banknote → Banknote → Int} {xs : List Banknote} {b : Banknote} :
    b ∈ arraySort cmp xs ↔ b ∈ xs :=
  (arraySort_perm cmp xs).mem_iff

theorem sortInsert_pairwise (cmp : Banknote → Banknote → Int) (le : Banknote → Banknote → Prop)
    (htrans : ∀ a b c, le a b → le b c → le a c)
    (hlt : ∀ a b, cmp a b < 0 → le a b) (hge : ∀ a b, ¬ cmp a b < 0 → le b a)
    (x : Banknote) (xs : List Banknote) (h : xs.Pairwise le) :
    (sortInsert cmp x xs).Pairwise le := by
  induction xs with
  | nil => simp [sortInsert]
  | cons y ys ih =>
    rw [List.pairwise_cons] at h
    unfold sortInsert
    split
    next hc =>
      rw [List.pairwise_cons]
      refine ⟨?_, List.pairwise_cons.mpr h⟩
      intro z hz
      rcases List.mem_cons.mp hz with rfl | hz
      · exact hlt _ _ hc
      · exact htrans _ _ _ (hlt _ _ hc) (h.1 z hz)
    next hc =>
      rw [List.pairwise_cons]
      refine ⟨?_, ih h.2⟩
      intro z hz
      rcases List.mem_cons.mp ((sortInsert_perm cmp x ys).mem_iff.mp hz) with rfl | hz
      · exact hge _ _ hc
      · exact h.1 z hz

theorem arraySort_pairwise (cmp : Banknote → Banknote → Int) (le : Banknote → Banknote → Prop)
    (htrans : ∀ a b c, le a b → le b c → le a c)
    (hlt : ∀ a b, cmp a b < 0 → le a b) (hge : ∀ a b, ¬ cmp a b < 0 → le b a)
    (xs : List Banknote) : (arraySort cmp xs).Pairwise le := by
  induction xs with
  | nil => simp [arraySort]
  | cons x xs ih =>
    unfold arraySort
    exact sortInsert_pairwise cmp le htrans hlt hge x _ ih

theorem arraySort_desc_pairwise (xs : List Banknote) :
    (arraySort sortBanknotesByDesc xs).Pairwise (fun a b => b.value ≤ a.value) := by
  apply arraySort_pairwise
  · intro a b c h1 h2; exact le_trans h2 h1
  · intro a b h
    unfold sortBanknotesByDesc at h
    split at h <;> omega
  · intro a b h
    unfold sortBanknotesByDesc at h
    split at h <;> omega

theorem arraySort_asc_pairwise (xs : List Banknote) :
    (arraySort sortBanknotesByAsc xs).Pairwise (fun a b => a.value ≤ b.value) := by
  apply arraySort_pairwise
  · intro a b c h1 h2; exact le_trans h1 h2
  · intro a b h
    unfold sortBanknotesByAsc at h
    split at h <;> omega
  · intro a b h
    unfold sortBanknotesByAsc at h
    split at h <;> omega

theorem arraySort_desc_strict (xs : List Banknote) (hd : (xs.map Banknote.value).Nodup) :
    (arraySort sortBanknotesByDesc xs).Pairwise (fun a b => b.value < a.value) := by
  have hp := arraySort_desc_pairwise xs
  have hd1 : ((arraySort sortBanknotesByDesc xs).map Banknote.value).Nodup :=
    ((arraySort_perm sortBanknotesByDesc xs).map Banknote.value).nodup_iff.mpr hd
  rw [List.Nodup, List.pairwise_map] at hd1
  exact (hp.and hd1).imp (fun ⟨h1, h2⟩ => lt_of_le_of_ne h1 (Ne.symm h2))


/-! ## Uniqueness of the sorted array -/

theorem arraySort_asc_strict (xs : List Banknote) (hd : (xs.map Banknote.value).Nodup) :
    (arraySort sortBanknotesByAsc xs).Pairwise (fun a b => a.value < b.value) := by
  have hp := arraySort_asc_pairwise xs
  have hd1 : ((arraySort sortBanknotesByAsc xs).map Banknote.value).Nodup :=
    ((arraySort_perm sortBanknotesByAsc xs).map Banknote.value).nodup_iff.mpr hd
  rw [List.Nodup, List.pairwise_map] at hd1
  exact (hp.and hd1).imp (fun ⟨h1, h2⟩ => lt_of_le_of_ne h1 h2)

theorem eq_of_perm_of_desc {xs ys : List Banknote} (hp : xs.Perm ys)
    (hx : xs.Pairwise (fun a b => b.value < a.value))
    (hy : ys.Pairwise (fun a b => b.value < a.value)) : xs = ys := by
  haveI : IsAntisymm Banknote (fun a b => b.value < a.value) :=
    ⟨fun a b h1 h2 => absurd h1 (not_lt.mpr (le_of_lt h2))⟩
  exact List.eq_of_perm_of_sorted hp hx hy

theorem eq_of_perm_of_asc {xs ys : List Banknote} (hp : xs.Perm ys)
    (hx : xs.Pairwise (fun a b => a.value < b.value))
    (hy : ys.Pairwise (fun a b => a.value < b.value)) : xs = ys := by
  haveI : IsAntisymm Banknote (fun a b => a.value < b.value) :=
    ⟨fun a b h1 h2 => absurd h1 (not_lt.mpr (le_of_lt h2))⟩
  exact List.eq_of_perm_of_sorted hp hx hy

theorem arraySort_desc_eq_of_perm {xs ys : List Banknote} (hp : xs.Perm ys)
    (hd : (xs.map Banknote.value).Nodup) :
    arraySort sortBanknotesByDesc xs = arraySort sortBanknotesByDesc ys := by
  have hd2 : (ys.map Banknote.value).Nodup := (hp.map Banknote.value).nodup_iff.mp hd
  exact eq_of_perm_of_desc
    (((arraySort_perm _ xs).trans hp).trans (arraySort_perm _ ys).symm)
    (arraySort_desc_strict xs hd) (arraySort_desc_strict ys hd2)

theorem arraySort_asc_eq_of_perm {xs ys : List Banknote} (hp : xs.Perm ys)
    (hd : (xs.map Banknote.value).Nodup) :
    arraySort sortBanknotesByAsc xs = arraySort sortBanknotesByAsc ys := by
  have hd2 : (ys.map Banknote.value).Nodup := (hp.map Banknote.value).nodup_iff.mp hd
  exact eq_of_perm_of_asc
    (((arraySort_perm _ xs).trans hp).trans (arraySort_perm _ ys).symm)
    (arraySort_asc_strict xs hd) (arraySort_asc_strict ys hd2)

theorem getBanknotes_congr (R : Int) {xs ys : List Banknote}
    (h : arraySort sortBanknotesByDesc xs = arraySort sortBanknotesByDesc ys) :
    getBanknotes R xs = getBanknotes R ys := by
  unfold getBanknotes buildPlan
  rw [h]

theorem getMinAvailableValue_congr {xs ys : List Banknote}
    (h : arraySort sortBanknotesByAsc xs = arraySort sortBanknotesByAsc ys) :
    getMinAvailableValue xs = getMinAvailableValue ys := by
  unfold getMinAvailableValue getMinAvailableBanknote
  rw [h]

/-! ## Usable counts -/

theorem getAvailableCount_nonneg (b : Banknote) : 0 ≤ getAvailableCount b := by
  unfold getAvailableCount
  simp only []
  split
  · exact le_of_lt (roundNumber_pos (by omega))
  · exact le_refl 0

theorem usableCount_nonneg (b : Banknote) : 0 ≤ usableCount b := by
  unfold usableCount
  split <;> omega

theorem getAvailableCount_pos_iff (b : Banknote) :
    0 < getAvailableCount b ↔ 0 < usableCount b := by
  unfold getAvailableCount usableCount
  simp only []
  split
  · constructor
    · intro _; omega
    · intro _; exact roundNumber_pos (by omega)
  · simp

theorem getAvailableCount_eq_usableCount {b : Banknote}
    (h : usableCount b ≤ 9007199254740992) : getAvailableCount b = usableCount b := by
  unfold getAvailableCount usableCount at *
  simp only []
  split
  · rw [if_pos (by assumption)] at h
    exact roundNumber_of_safe (by omega) h
  · rfl

theorem hasAvailableCount_iff (b : Banknote) :
    hasAvailableCount b = true ↔ 0 < getAvailableCount b := by
  have h := getAvailableCount_nonneg b
  simp only [hasAvailableCount, bne_iff_ne, ne_eq]
  omega

theorem planTotal_append_entry (xs : List Banknote) (v c : Int) :
    planTotal (xs ++ [{ value := v, count := some c }]) = planTotal xs + v * c := by
  simp [planTotal]

/-! ## The reduce step -/

theorem reducer_skip {acc : Acc} {b : Banknote}
    (h : b.value > acc.remainder ∨ getAvailableCount b = 0) : reducer acc b = acc := by
  unfold reducer
  simp only []
  rw [if_pos]
  simpa using h

theorem reducer_take {acc : Acc} {b : Banknote}
    (h1 : b.value ≤ acc.remainder) (h2 : getAvailableCount b ≠ 0) :
    reducer acc b =
      { banknotes := acc.banknotes ++
          [{ value := b.value,
             count := some (min (floorDivide acc.remainder b.value) (getAvailableCount b)) }],
        remainder := roundNumber (acc.remainder
          - roundNumber (b.value
              * min (floorDivide acc.remainder b.value) (getAvailableCount b))) } := by
  have hmin : (if floorDivide acc.remainder b.value > getAvailableCount b
      then getAvailableCount b else floorDivide acc.remainder b.value)
      = min (floorDivide acc.remainder b.value) (getAvailableCount b) := by
    split
    · rw [min_eq_right]; omega
    · rw [min_eq_left]; omega
  unfold reducer
  simp only []
  rw [if_neg, hmin]
  simp
  exact ⟨h1, h2⟩

theorem reducer_cases (acc : Acc) (b : Banknote) :
    reducer acc b = acc ∨
    (b.value ≤ acc.remainder ∧ 0 < getAvailableCount b ∧
      reducer acc b =
        { banknotes := acc.banknotes ++
            [{ value := b.value,
               count := some (min (floorDivide acc.remainder b.value)
                 (getAvailableCount b)) }],
          remainder := roundNumber (acc.remainder
            - roundNumber (b.value
                * min (floorDivide acc.remainder b.value) (getAvailableCount b))) }) := by
  by_cases h1 : b.value > acc.remainder
  · exact Or.inl (reducer_skip (Or.inl h1))
  · by_cases h2 : getAvailableCount b = 0
    · exact Or.inl (reducer_skip (Or.inr h2))
    · have h3 := getAvailableCount_nonneg b
      exact Or.inr ⟨not_lt.mp h1, by omega, reducer_take (not_lt.mp h1) h2⟩

theorem foldl_induction (f : Acc → Banknote → Acc) (P : Acc → Prop) (xs : List Banknote)
    (acc : Acc) (h0 : P acc) (hstep : ∀ a b, b ∈ xs → P a → P (f a b)) :
    P (xs.foldl f acc) := by
  induction xs generalizing acc with
  | nil => simpa using h0
  | cons x xs ih =>
    rw [List.foldl_cons]
    apply ih
    · exact hstep acc x (List.mem_cons_self x xs) h0
    · intro a b hb ha
      exact hstep a b (List.mem_cons_of_mem x hb) ha

/-! ## The plan built by the reduce -/

theorem foldl_reducer_all_skip (xs : List Banknote) (acc : Acc)
    (h : ∀ b ∈ xs, b.value > acc.remainder ∨ getAvailableCount b = 0) :
    xs.foldl reducer acc = acc := by
  induction xs with
  | nil => rfl
  | cons x xs ih =>
    rw [List.foldl_cons, reducer_skip (h x (List.mem_cons_self x xs))]
    exact ih (fun b hb => h b (List.mem_cons_of_mem x hb))

theorem foldl_reducer_entries (xs : List Banknote) (R : Int) :
    ∀ e ∈ (xs.foldl reducer ⟨[], R⟩).banknotes, ∃ b ∈ xs, ∃ r : Int,
      b.value ≤ r ∧ 0 < getAvailableCount b ∧
      e = { value := b.value,
            count := some (min (floorDivide r b.value) (getAvailableCount b)) } := by
  apply foldl_induction reducer
    (fun a => ∀ e ∈ a.banknotes, ∃ b ∈ xs, ∃ r : Int,
      b.value ≤ r ∧ 0 < getAvailableCount b ∧
      e = { value := b.value,
            count := some (min (floorDivide r b.value) (getAvailableCount b)) })
  · intro e he
    simp at he
  · intro a b hb ha
    rcases reducer_cases a b with h | ⟨hle, hav, h⟩
    · rw [h]; exact ha
    · rw [h]
      intro e he
      rcases List.mem_append.mp he with he | he
      · exact ha e he
      · rw [List.mem_singleton] at he
        exact ⟨b, hb, a.remainder, hle, hav, he⟩

theorem foldl_reducer_values (xs : List Banknote) (acc : Acc) :
    ∃ l : List Int, l.Sublist (xs.map Banknote.value) ∧
      (xs.foldl reducer acc).banknotes.map Banknote.value
        = acc.banknotes.map Banknote.value ++ l := by
  induction xs generalizing acc with
  | nil => exact ⟨[], List.Sublist.refl _, by simp⟩
  | cons x xs ih =>
    rw [List.foldl_cons]
    rcases reducer_cases acc x with h | ⟨_, _, h⟩
    · obtain ⟨l, hl, he⟩ := ih acc
      rw [h]
      exact ⟨l, by simpa using hl.cons x.value, he⟩
    · obtain ⟨l, hl, he⟩ := ih (reducer acc x)
      refine ⟨x.value :: l, by simpa using hl.cons₂ x.value, ?_⟩
      rw [he, h]
      simp

theorem foldl_reducer_le (xs : List Banknote) (acc : Acc)
    (hvalue : ∀ b ∈ xs, 0 < b.value) :
    planTotal (xs.foldl reducer acc).banknotes
      ≤ planTotal acc.banknotes + (xs.map fun b => b.value * getAvailableCount b).sum := by
  induction xs generalizing acc with
  | nil => simp
  | cons x xs ih =>
    rw [List.foldl_cons, List.map_cons, List.sum_cons]
    have hx := hvalue x (List.mem_cons_self x xs)
    have ih2 := ih (reducer acc x) (fun b hb => hvalue b (List.mem_cons_of_mem x hb))
    rcases reducer_cases acc x with h | ⟨_, _, h⟩
    · rw [h] at ih2 ⊢
      have h1 := Int.mul_nonneg (le_of_lt hx) (getAvailableCount_nonneg x)
      omega
    · rw [h] at ih2
      simp only [planTotal_append_entry] at ih2
      have h1 : x.value * min (floorDivide acc.remainder x.value) (getAvailableCount x)
          ≤ x.value * getAvailableCount x :=
        Int.mul_le_mul_of_nonneg_left (min_le_right _ _) (le_of_lt hx)
      rw [h]
      omega

theorem getBanknotes_result_ok {R : Int} {inv plan : List Banknote}
    (h : (getBanknotes R inv).result = Except.ok plan) :
    getMaxAmount (buildPlan R inv).banknotes = R ∧ plan = (buildPlan R inv).banknotes := by
  unfold getBanknotes at h
  simp only [] at h
  split at h
  · cases h
  · next hc =>
    injection h with h
    exact ⟨not_not.mp hc, h.symm⟩

theorem getBanknotes_result_of_eq {R : Int} {inv : List Banknote}
    (h : getMaxAmount (buildPlan R inv).banknotes = R) :
    (getBanknotes R inv).result = Except.ok (buildPlan R inv).banknotes := by
  unfold getBanknotes
  simp only []
  rw [if_neg (not_not.mpr h)]

theorem getBanknotes_result_of_ne {R : Int} {inv : List Banknote}
    (h : getMaxAmount (buildPlan R inv).banknotes ≠ R) :
    (getBanknotes R inv).result = Except.error "Not enought banknotes" := by
  unfold getBanknotes
  simp only []
  rw [if_pos h]

theorem getBanknotes_result_cases (R : Int) (inv : List Banknote) :
    (getBanknotes R inv).result = Except.error "Not enought banknotes" ∨
      (getBanknotes R inv).result = Except.ok (buildPlan R inv).banknotes := by
  by_cases h : getMaxAmount (buildPlan R inv).banknotes = R
  · exact Or.inr (getBanknotes_result_of_eq h)
  · exact Or.inl (getBanknotes_result_of_ne h)

theorem buildPlan_descending (R : Int) (inv : List Banknote)
    (hdistinct : (inv.map Banknote.value).Nodup) :
    (buildPlan R inv).banknotes.Pairwise (fun e1 e2 => e2.value < e1.value) := by
  obtain ⟨l, hl, he⟩ := foldl_reducer_values (arraySort sortBanknotesByDesc inv) ⟨[], R⟩
  have hs := arraySort_desc_strict inv hdistinct
  have hs2 : ((arraySort sortBanknotesByDesc inv).map Banknote.value).Pairwise
      (fun x y => y < x) := List.pairwise_map.mpr hs
  have hl2 := hs2.sublist hl
  simp only [List.map_nil, List.nil_append] at he
  rw [← he] at hl2
  exact List.pairwise_map.mp hl2

/-! ## The reduce in exact arithmetic -/

theorem fdiv_pos_of_le {a b : Int} (hb : 0 < b) (hab : b ≤ a) : 1 ≤ Int.fdiv a b := by
  rw [Int.fdiv_eq_ediv a (le_of_lt hb)]
  exact (Int.le_ediv_iff_mul_le hb).mpr (by omega)

theorem mul_fdiv_le {a b : Int} (hb : 0 < b) : b * Int.fdiv a b ≤ a := by
  have h := Int.fmod_add_fdiv a b
  have h2 := Int.fmod_nonneg' a hb
  omega

theorem reducerExact_skip {acc : Acc} {b : Banknote}
    (h : b.value > acc.remainder ∨ usableCount b = 0) : reducerExact acc b = acc := by
  unfold reducerExact
  simp only []
  rw [if_pos]
  simpa using h

theorem reducerExact_take {acc : Acc} {b : Banknote}
    (h1 : b.value ≤ acc.remainder) (h2 : usableCount b ≠ 0) :
    reducerExact acc b =
      { banknotes := acc.banknotes ++
          [{ value := b.value,
             count := some (min (Int.fdiv acc.remainder b.value) (usableCount b)) }],
        remainder := acc.remainder
          - b.value * min (Int.fdiv acc.remainder b.value) (usableCount b) } := by
  have hmin : (if Int.fdiv acc.remainder b.value > usableCount b then usableCount b
      else Int.fdiv acc.remainder b.value)
      = min (Int.fdiv acc.remainder b.value) (usableCount b) := by
    split
    · rw [min_eq_right]; omega
    · rw [min_eq_left]; omega
  unfold reducerExact
  simp only []
  rw [if_neg, hmin]
  simp
  exact ⟨h1, h2⟩

theorem reducerExact_cases (acc : Acc) (b : Banknote) :
    reducerExact acc b = acc ∨
    (b.value ≤ acc.remainder ∧ 0 < usableCount b ∧
      reducerExact acc b =
        { banknotes := acc.banknotes ++
            [{ value := b.value,
               count := some (min (Int.fdiv acc.remainder b.value) (usableCount b)) }],
          remainder := acc.remainder
            - b.value * min (Int.fdiv acc.remainder b.value) (usableCount b) }) := by
  by_cases h1 : b.value > acc.remainder
  · exact Or.inl (reducerExact_skip (Or.inl h1))
  · by_cases h2 : usableCount b = 0
    · exact Or.inl (reducerExact_skip (Or.inr h2))
    · have h3 := usableCount_nonneg b
      exact Or.inr ⟨not_lt.mp h1, by omega, reducerExact_take (not_lt.mp h1) h2⟩

theorem foldl_reducerExact_total (xs : List Banknote) (acc : Acc) :
    planTotal (xs.foldl reducerExact acc).banknotes + (xs.foldl reducerExact acc).remainder
      = planTotal acc.banknotes + acc.remainder := by
  apply foldl_induction reducerExact
    (fun a => planTotal a.banknotes + a.remainder = planTotal acc.banknotes + acc.remainder)
  · rfl
  · intro a b _ ha
    rcases reducerExact_cases a b with h | ⟨_, _, h⟩
    · rw [h]; exact ha
    · rw [h]
      simp only [planTotal_append_entry]
      omega

theorem foldl_reducerExact_entries (xs : List Banknote) (R : Int) :
    ∀ e ∈ (xs.foldl reducerExact ⟨[], R⟩).banknotes, ∃ b ∈ xs, ∃ r : Int,
      b.value ≤ r ∧ 0 < usableCount b ∧
      e = { value := b.value,
            count := some (min (Int.fdiv r b.value) (usableCount b)) } := by
  apply foldl_induction reducerExact
    (fun a => ∀ e ∈ a.banknotes, ∃ b ∈ xs, ∃ r : Int,
      b.value ≤ r ∧ 0 < usableCount b ∧
      e = { value := b.value,
            count := some (min (Int.fdiv r b.value) (usableCount b)) })
  · intro e he
    simp at he
  · intro a b hb ha
    rcases reducerExact_cases a b with h | ⟨hle, hav, h⟩
    · rw [h]; exact ha
    · rw [h]
      intro e he
      rcases List.mem_append.mp he with he | he
      · exact ha e he
      · rw [List.mem_singleton] at he
        exact ⟨b, hb, a.remainder, hle, hav, he⟩

theorem maxDispensable_cons (x : Banknote) (xs : List Banknote) :
    maxDispensable (x :: xs) = x.value * usableCount x + maxDispensable xs := by
  simp [maxDispensable]

theorem maxDispensable_nonneg (xs : List Banknote) (hvalue : ∀ b ∈ xs, 0 < b.value) :
    0 ≤ maxDispensable xs := by
  induction xs with
  | nil => simp [maxDispensable]
  | cons x xs ih =>
    rw [maxDispensable_cons]
    have h1 := Int.mul_nonneg (le_of_lt (hvalue x (List.mem_cons_self x xs)))
      (usableCount_nonneg x)
    have h2 := ih (fun b hb => hvalue b (List.mem_cons_of_mem x hb))
    omega

theorem maxDispensable_perm {xs ys : List Banknote} (h : xs.Perm ys) :
    maxDispensable xs = maxDispensable ys := by
  unfold maxDispensable
  exact (h.map _).sum_eq

theorem foldl_reducerExact_full (xs : List Banknote) (acc : Acc) (r0 : Int) (hr0 : 0 ≤ r0)
    (hvalue : ∀ b ∈ xs, 0 < b.value) (hacc : acc.remainder = r0 + maxDispensable xs) :
    xs.foldl reducerExact acc =
      { banknotes := acc.banknotes ++ (xs.filter hasAvailableCount).map
          (fun b => { value := b.value, count := some (usableCount b) }),
        remainder := r0 } := by
  induction xs generalizing acc with
  | nil =>
    simp only [maxDispensable, List.map_nil, List.sum_nil, add_zero] at hacc
    simp [← hacc]
  | cons x xs ih =>
    rw [List.foldl_cons]
    rw [maxDispensable_cons] at hacc
    have hx := hvalue x (List.mem_cons_self x xs)
    have hxs : ∀ b ∈ xs, 0 < b.value := fun b hb => hvalue b (List.mem_cons_of_mem x hb)
    have hS := maxDispensable_nonneg xs hxs
    have hav0 := usableCount_nonneg x
    by_cases hav : usableCount x = 0
    · rw [reducerExact_skip (Or.inr hav)]
      have hf : hasAvailableCount x = false := by
        cases hh : hasAvailableCount x with
        | false => rfl
        | true =>
          have := (getAvailableCount_pos_iff x).mp ((hasAvailableCount_iff x).mp hh)
          omega
      rw [List.filter_cons_of_neg (by simp [hf])]
      apply ih acc hxs
      rw [hacc, hav]
      omega
    · have hpos : 0 < usableCount x := by omega
      have hmul : x.value * 1 ≤ x.value * usableCount x :=
        Int.mul_le_mul_of_nonneg_left hpos (le_of_lt hx)
      have hle : x.value ≤ acc.remainder := by omega
      have hq : usableCount x ≤ Int.fdiv acc.remainder x.value := by
        rw [Int.fdiv_eq_ediv _ (le_of_lt hx)]
        apply (Int.le_ediv_iff_mul_le hx).mpr
        rw [Int.mul_comm]
        omega
      rw [reducerExact_take hle hav, min_eq_right hq]
      have hf : hasAvailableCount x = true :=
        (hasAvailableCount_iff x).mpr ((getAvailableCount_pos_iff x).mpr hpos)
      rw [List.filter_cons_of_pos hf, List.map_cons]
      rw [ih _ hxs (by simp only []; omega)]
      simp

theorem reducerExact_remainder_nonneg {a : Acc} {b : Banknote} (hv : 0 < b.value)
    (ha : 0 ≤ a.remainder) : 0 ≤ (reducerExact a b).remainder := by
  rcases reducerExact_cases a b with h | ⟨_, _, h⟩
  · rw [h]; exact ha
  · rw [h]
    simp only []
    have h1 : b.value * min (Int.fdiv a.remainder b.value) (usableCount b)
        ≤ b.value * Int.fdiv a.remainder b.value :=
      Int.mul_le_mul_of_nonneg_left (min_le_left _ _) (le_of_lt hv)
    have h2 := mul_fdiv_le (a := a.remainder) hv
    omega

theorem foldl_reducerExact_remainder_nonneg (xs : List Banknote) (acc : Acc)
    (hvalue : ∀ b ∈ xs, 0 < b.value) (hacc : 0 ≤ acc.remainder) :
    0 ≤ (xs.foldl reducerExact acc).remainder := by
  apply foldl_induction reducerExact (fun a => 0 ≤ a.remainder) xs acc hacc
  intro a b hb ha
  exact reducerExact_remainder_nonneg (hvalue b hb) ha

theorem planTotal_nonneg (plan : List Banknote)
    (h : ∀ e ∈ plan, 0 ≤ e.value * e.count.getD 0) : 0 ≤ planTotal plan := by
  induction plan with
  | nil => simp [planTotal]
  | cons e es ih =>
    have h1 := h e (List.mem_cons_self e es)
    have h2 := ih (fun x hx => h x (List.mem_cons_of_mem e hx))
    simp only [planTotal, List.map_cons, List.sum_cons] at h2 ⊢
    omega

theorem dvd_planTotal (m : Int) (plan : List Banknote)
    (h : ∀ e ∈ plan, m ∣ e.value * e.count.getD 0) : m ∣ planTotal plan := by
  unfold planTotal
  apply List.dvd_sum
  intro x hx
  obtain ⟨e, he, rfl⟩ := List.mem_map.mp hx
  exact h e he

theorem floor_div_eq_fdiv (r : Int) {v : Int} (hv : 0 < v) :
    ⌊(r : ℚ) / (v : ℚ)⌋ = Int.fdiv r v := by
  rw [Int.fdiv_eq_ediv r (le_of_lt hv)]
  have h := Rat.floor_intCast_div_natCast r v.toNat
  have hcast : ((v.toNat : ℕ) : ℤ) = v := Int.toNat_of_nonneg (le_of_lt hv)
  have hq : ((v.toNat : ℕ) : ℚ) = (v : ℚ) := by
    rw [← Int.cast_natCast, hcast]
  rw [hq, hcast] at h
  exact h

theorem greedyWalk_cons_take (r : Int) (d : Banknote) (ds : List Banknote)
    (h : 0 < usableCount d ∧ d.value ≤ r) :
    greedyWalk r (d :: ds) =
      ({ value := d.value, count := some (min ⌊(r : ℚ) / (d.value : ℚ)⌋ (usableCount d)) } ::
          (greedyWalk (r - d.value * min ⌊(r : ℚ) / (d.value : ℚ)⌋ (usableCount d)) ds).1,
        (greedyWalk (r - d.value * min ⌊(r : ℚ) / (d.value : ℚ)⌋ (usableCount d)) ds).2) := by
  rw [greedyWalk, if_pos h]

theorem greedyWalk_cons_skip (r : Int) (d : Banknote) (ds : List Banknote)
    (h : ¬ (0 < usableCount d ∧ d.value ≤ r)) :
    greedyWalk r (d :: ds) = greedyWalk r ds := by
  rw [greedyWalk, if_neg h]

theorem foldl_reducerExact_eq_greedyWalk (xs : List Banknote) (acc : Acc)
    (hvalue : ∀ b ∈ xs, 0 < b.value) :
    xs.foldl reducerExact acc =
      { banknotes := acc.banknotes ++ (greedyWalk acc.remainder xs).1,
        remainder := (greedyWalk acc.remainder xs).2 } := by
  induction xs generalizing acc with
  | nil => simp [greedyWalk]
  | cons x xs ih =>
    have hx := hvalue x (List.mem_cons_self x xs)
    have hxs : ∀ b ∈ xs, 0 < b.value := fun b hb => hvalue b (List.mem_cons_of_mem x hb)
    have hav0 := usableCount_nonneg x
    rw [List.foldl_cons, ih _ hxs]
    by_cases hc : 0 < usableCount x ∧ x.value ≤ acc.remainder
    · rw [greedyWalk_cons_take _ _ _ hc, floor_div_eq_fdiv _ hx]
      rw [reducerExact_take hc.2 (by omega)]
      simp
    · rw [greedyWalk_cons_skip _ _ _ hc]
      rw [reducerExact_skip (by omega)]

theorem coverable_nil (T : Int) : Coverable T [] ↔ T = 0 := by
  unfold Coverable
  constructor
  · rintro ⟨counts, hf, hs⟩
    cases hf
    simpa using hs.symm
  · intro h
    exact ⟨[], List.Forall₂.nil, by simp [h]⟩

theorem coverable_cons (T : Int) (y : Banknote) (ys : List Banknote) :
    Coverable T (y :: ys) ↔
      ∃ k : Int, 0 ≤ k ∧ k ≤ usableCount y ∧ Coverable (T - y.value * k) ys := by
  unfold Coverable
  constructor
  · rintro ⟨counts, hf, hs⟩
    cases hf with
    | cons hk hrest =>
      rename_i k ks
      refine ⟨k, hk.1, hk.2, ks, hrest, ?_⟩
      simp only [List.zipWith_cons_cons, List.sum_cons] at hs
      omega
  · rintro ⟨k, hk0, hku, ks, hrest, hs⟩
    refine ⟨k :: ks, List.Forall₂.cons ⟨hk0, hku⟩ hrest, ?_⟩
    simp only [List.zipWith_cons_cons, List.sum_cons]
    omega

theorem coverable_nonneg {T : Int} {xs : List Banknote} (hvalue : ∀ b ∈ xs, 0 < b.value)
    (h : Coverable T xs) : 0 ≤ T := by
  induction xs generalizing T with
  | nil => rw [coverable_nil] at h; omega
  | cons x xs ih =>
    obtain ⟨k, hk0, _, hrest⟩ := (coverable_cons T x xs).mp h
    have h1 := ih (fun b hb => hvalue b (List.mem_cons_of_mem x hb)) hrest
    have h2 := Int.mul_nonneg (le_of_lt (hvalue x (List.mem_cons_self x xs))) hk0
    omega

theorem coverable_perm {xs ys : List Banknote} (hp : xs.Perm ys) (T : Int)
    (h : Coverable T xs) : Coverable T ys := by
  induction hp generalizing T with
  | nil => exact h
  | cons x _ ih =>
    obtain ⟨k, hk0, hku, hrest⟩ := (coverable_cons T x _).mp h
    exact (coverable_cons T x _).mpr ⟨k, hk0, hku, ih _ hrest⟩
  | swap x y l =>
    obtain ⟨k, hk0, hku, hrest⟩ := (coverable_cons T y _).mp h
    obtain ⟨j, hj0, hju, hrest2⟩ := (coverable_cons _ x _).mp hrest
    refine (coverable_cons T x _).mpr ⟨j, hj0, hju, (coverable_cons _ y _).mpr ⟨k, hk0, hku, ?_⟩⟩
    have : T - x.value * j - y.value * k = T - y.value * k - x.value * j := by omega
    rw [this]
    exact hrest2
  | trans _ _ ih1 ih2 => exact ih2 _ (ih1 _ h)

theorem coverable_sub (ys : List Banknote) (T D : Int)
    (hchain : ys.Pairwise (fun a b => b.value ∣ a.value))
    (hvalue : ∀ b ∈ ys, 0 < b.value) (hcover : Coverable T ys)
    (hD0 : 0 ≤ D) (hDT : D ≤ T) (hdvd : ∀ b ∈ ys, b.value ∣ D) :
    Coverable (T - D) ys := by
  induction ys generalizing T D with
  | nil =>
    rw [coverable_nil] at hcover ⊢
    omega
  | cons y ys ih =>
    rw [List.pairwise_cons] at hchain
    have hy := hvalue y (List.mem_cons_self y ys)
    have hys : ∀ b ∈ ys, 0 < b.value := fun b hb => hvalue b (List.mem_cons_of_mem y hb)
    obtain ⟨k, hk0, hku, hrest⟩ := (coverable_cons T y ys).mp hcover
    obtain ⟨d, rfl⟩ := hdvd y (List.mem_cons_self y ys)
    have hd0 : 0 ≤ d := by
      by_contra hc
      have h1 : d ≤ -1 := by omega
      have h2 : y.value * d ≤ y.value * (-1) :=
        Int.mul_le_mul_of_nonneg_left h1 (le_of_lt hy)
      omega
    rw [coverable_cons]
    by_cases hdk : d ≤ k
    · refine ⟨k - d, by omega, by omega, ?_⟩
      have : T - y.value * d - y.value * (k - d) = T - y.value * k := by
        rw [Int.mul_sub]; omega
      rw [this]
      exact hrest
    · refine ⟨0, le_refl 0, le_trans hk0 hku, ?_⟩
      have heq : T - y.value * d - y.value * 0 = (T - y.value * k) - y.value * (d - k) := by
        rw [Int.mul_sub]; omega
      rw [heq]
      apply ih _ _ hchain.2 hys hrest
      · exact Int.mul_nonneg (le_of_lt hy) (by omega)
      · rw [Int.mul_sub]; omega
      · intro b hb
        exact Dvd.dvd.mul_right (hchain.1 b hb) _

theorem foldl_reducerExact_remainder_zero (xs : List Banknote) (acc : Acc)
    (hchain : xs.Pairwise (fun a b => b.value ∣ a.value))
    (hvalue : ∀ b ∈ xs, 0 < b.value) (hcover : Coverable acc.remainder xs) :
    (xs.foldl reducerExact acc).remainder = 0 := by
  induction xs generalizing acc with
  | nil =>
    rw [coverable_nil] at hcover
    exact hcover
  | cons x xs ih =>
    rw [List.pairwise_cons] at hchain
    have hx := hvalue x (List.mem_cons_self x xs)
    have hxs : ∀ b ∈ xs, 0 < b.value := fun b hb => hvalue b (List.mem_cons_of_mem x hb)
    obtain ⟨k, hk0, hku, hrest⟩ := (coverable_cons _ x xs).mp hcover
    have hS := coverable_nonneg hxs hrest
    rw [List.foldl_cons]
    by_cases hskip : x.value > acc.remainder ∨ usableCount x = 0
    · -- nothing can be taken of this record, so the cover takes nothing of it either
      have hk : k = 0 := by
        rcases hskip with h | h
        · by_contra hc
          have h1 : x.value * 1 ≤ x.value * k :=
            Int.mul_le_mul_of_nonneg_left (by omega) (le_of_lt hx)
          omega
        · omega
      rw [reducerExact_skip hskip]
      apply ih acc hchain.2 hxs
      rw [hk] at hrest
      simpa using hrest
    · have hle : x.value ≤ acc.remainder := by omega
      have hav : usableCount x ≠ 0 := by omega
      rw [reducerExact_take hle hav]
      apply ih _ hchain.2 hxs
      simp only []
      have hkq : k ≤ Int.fdiv acc.remainder x.value := by
        rw [Int.fdiv_eq_ediv _ (le_of_lt hx)]
        apply (Int.le_ediv_iff_mul_le hx).mpr
        rw [Int.mul_comm]
        omega
      have hkc : k ≤ min (Int.fdiv acc.remainder x.value) (usableCount x) :=
        le_min hkq hku
      have hcq : x.value * min (Int.fdiv acc.remainder x.value) (usableCount x)
          ≤ acc.remainder :=
        le_trans (Int.mul_le_mul_of_nonneg_left (min_le_left _ _) (le_of_lt hx))
          (mul_fdiv_le hx)
      have heq : acc.remainder
            - x.value * min (Int.fdiv acc.remainder x.value) (usableCount x)
          = (acc.remainder - x.value * k)
            - x.value * (min (Int.fdiv acc.remainder x.value) (usableCount x) - k) := by
        rw [Int.mul_sub]; omega
      rw [heq]
      apply coverable_sub xs _ _ hchain.2 hxs hrest
      · exact Int.mul_nonneg (le_of_lt hx) (by omega)
      · rw [Int.mul_sub]; omega
      · intro b hb
        exact Dvd.dvd.mul_right (hchain.1 b hb) _

theorem runAtmBanknotes_coverable (R : Int) (hpos : 0 < R) (hdvd : (100 : Int) ∣ R)
    (hmax : R ≤ 251600) : Coverable R runAtmBanknotes := by
  obtain ⟨m, rfl⟩ := hdvd
  unfold runAtmBanknotes
  rw [coverable_cons]
  refine ⟨min (m / 50) 40, by omega, by simp [usableCount], ?_⟩
  rw [coverable_cons]
  refine ⟨min ((m - 50 * min (m / 50) 40) / 10) 40, by omega, by simp [usableCount], ?_⟩
  rw [coverable_cons]
  refine ⟨min ((m - 50 * min (m / 50) 40
      - 10 * min ((m - 50 * min (m / 50) 40) / 10) 40) / 2) 38, by omega,
    by simp [usableCount], ?_⟩
  rw [coverable_cons]
  refine ⟨m - 50 * min (m / 50) 40
      - 10 * min ((m - 50 * min (m / 50) 40) / 10) 40
      - 2 * min ((m - 50 * min (m / 50) 40
        - 10 * min ((m - 50 * min (m / 50) 40) / 10) 40) / 2) 38, by omega, ?_, ?_⟩
  · simp only [usableCount]
    simp only [Option.getD_some, Option.getD_none]
    omega
  · rw [coverable_nil]
    dsimp only
    omega

/-! ## The source's arithmetic is exact on safe integers -/

theorem getAvailableCount_ge {b : Banknote} (h : 9007199254740992 ≤ usableCount b) :
    9007199254740992 ≤ getAvailableCount b := by
  unfold getAvailableCount usableCount at *
  simp only [] at *
  split
  · rw [if_pos (by assumption)] at h
    exact roundNumber_ge h
  · rw [if_neg (by assumption)] at h
    omega

theorem getAvailableCount_eq_zero_iff (b : Banknote) :
    getAvailableCount b = 0 ↔ usableCount b = 0 := by
  have h1 := getAvailableCount_nonneg b
  have h2 := usableCount_nonneg b
  have h3 := getAvailableCount_pos_iff b
  constructor <;> intro h <;> omega

theorem reducer_eq_exact {acc : Acc} {b : Banknote} (hv : 0 < b.value)
    (hr : acc.remainder ≤ maxSafeInteger) : reducer acc b = reducerExact acc b := by
  by_cases hskip : b.value > acc.remainder ∨ usableCount b = 0
  · rw [reducerExact_skip hskip]
    apply reducer_skip
    rcases hskip with h | h
    · exact Or.inl h
    · exact Or.inr ((getAvailableCount_eq_zero_iff b).mpr h)
  · have hle : b.value ≤ acc.remainder := by omega
    have hu : usableCount b ≠ 0 := by omega
    have hu0 := usableCount_nonneg b
    have hga : getAvailableCount b ≠ 0 := fun h => hu ((getAvailableCount_eq_zero_iff b).mp h)
    rw [reducer_take hle hga, reducerExact_take hle hu, floorDivide_eq_fdiv hv hle hr]
    have hq1 := fdiv_pos_of_le hv hle
    have hvq := mul_fdiv_le (a := acc.remainder) hv
    have hq : Int.fdiv acc.remainder b.value ≤ acc.remainder := by
      have : 1 * Int.fdiv acc.remainder b.value ≤ b.value * Int.fdiv acc.remainder b.value :=
        Int.mul_le_mul_of_nonneg_right (by omega) (by omega)
      omega
    unfold maxSafeInteger at hr
    -- the count taken is the same
    have hmin : min (Int.fdiv acc.remainder b.value) (getAvailableCount b)
        = min (Int.fdiv acc.remainder b.value) (usableCount b) := by
      by_cases hbig : usableCount b ≤ 9007199254740992
      · rw [getAvailableCount_eq_usableCount hbig]
      · have h1 := @getAvailableCount_ge b (by omega)
        rw [min_eq_left (by omega), min_eq_left (by omega)]
    rw [hmin]
    -- the product and the difference are exact
    have hc1 : 1 ≤ min (Int.fdiv acc.remainder b.value) (usableCount b) :=
      le_min hq1 (by omega)
    have hcq : b.value * min (Int.fdiv acc.remainder b.value) (usableCount b)
        ≤ b.value * Int.fdiv acc.remainder b.value :=
      Int.mul_le_mul_of_nonneg_left (min_le_left _ _) (le_of_lt hv)
    have hc0 : 0 ≤ b.value * min (Int.fdiv acc.remainder b.value) (usableCount b) :=
      Int.mul_nonneg (le_of_lt hv) (by omega)
    have hin : roundNumber (b.value * min (Int.fdiv acc.remainder b.value) (usableCount b))
        = b.value * min (Int.fdiv acc.remainder b.value) (usableCount b) :=
      roundNumber_of_safe (by omega) (by omega)
    have hout : roundNumber (acc.remainder
          - b.value * min (Int.fdiv acc.remainder b.value) (usableCount b))
        = acc.remainder - b.value * min (Int.fdiv acc.remainder b.value) (usableCount b) :=
      roundNumber_of_safe (by omega) (by omega)
    rw [hin, hout]

theorem reducerExact_remainder_le {acc : Acc} {b : Banknote} (hv : 0 < b.value) :
    (reducerExact acc b).remainder ≤ acc.remainder := by
  rcases reducerExact_cases acc b with h | ⟨hle, hav, h⟩
  · rw [h]
  · rw [h]
    simp only []
    have hq1 := fdiv_pos_of_le hv hle
    have hc0 : 0 ≤ b.value * min (Int.fdiv acc.remainder b.value) (usableCount b) :=
      Int.mul_nonneg (le_of_lt hv) (le_min (by omega) (le_of_lt hav))
    omega

theorem foldl_reducer_eq_exact (xs : List Banknote) (acc : Acc)
    (hvalue : ∀ b ∈ xs, 0 < b.value) (hr : acc.remainder ≤ maxSafeInteger) :
    xs.foldl reducer acc = xs.foldl reducerExact acc := by
  induction xs generalizing acc with
  | nil => rfl
  | cons x xs ih =>
    have hx := hvalue x (List.mem_cons_self x xs)
    rw [List.foldl_cons, List.foldl_cons, reducer_eq_exact hx hr]
    exact ih _ (fun b hb => hvalue b (List.mem_cons_of_mem x hb))
      (le_trans (reducerExact_remainder_le hx) hr)

theorem foldl_getMaxAmount_eq (xs : List Banknote) (a : Int)
    (hvalue : ∀ b ∈ xs, 0 < b.value) (ha : 0 ≤ a)
    (h : a + maxDispensable xs ≤ 9007199254740992) :
    xs.foldl
        (fun acc banknote =>
          roundNumber (acc + roundNumber (banknote.value * getAvailableCount banknote))) a
      = a + maxDispensable xs := by
  induction xs generalizing a with
  | nil => simp [maxDispensable]
  | cons x xs ih =>
    have hx := hvalue x (List.mem_cons_self x xs)
    have hxs : ∀ b ∈ xs, 0 < b.value := fun b hb => hvalue b (List.mem_cons_of_mem x hb)
    have hS := maxDispensable_nonneg xs hxs
    have hu0 := usableCount_nonneg x
    rw [maxDispensable_cons] at h ⊢
    have hmul : 1 * usableCount x ≤ x.value * usableCount x :=
      Int.mul_le_mul_of_nonneg_right (by omega) hu0
    have hp0 : 0 ≤ x.value * usableCount x := Int.mul_nonneg (le_of_lt hx) hu0
    have hin : roundNumber (x.value * usableCount x) = x.value * usableCount x :=
      roundNumber_of_safe (by omega) (by omega)
    have hout : roundNumber (a + x.value * usableCount x) = a + x.value * usableCount x :=
      roundNumber_of_safe (by omega) (by omega)
    rw [List.foldl_cons, getAvailableCount_eq_usableCount (by omega), hin, hout,
      ih _ hxs (by omega) (by omega)]
    omega

theorem getMaxAmount_eq_maxDispensable (xs : List Banknote)
    (hvalue : ∀ b ∈ xs, 0 < b.value) (h : maxDispensable xs ≤ 9007199254740992) :
    getMaxAmount xs = maxDispensable xs := by
  unfold getMaxAmount
  rw [foldl_getMaxAmount_eq xs 0 hvalue (le_refl 0) (by omega)]
  omega

theorem maxDispensable_eq_planTotal (plan : List Banknote)
    (h : ∀ e ∈ plan, e.minCount = none ∧ ∃ c : Int, e.count = some c ∧ 0 ≤ c) :
    maxDispensable plan = planTotal plan := by
  induction plan with
  | nil => rfl
  | cons e es ih =>
    rw [maxDispensable_cons, ih (fun x hx => h x (List.mem_cons_of_mem e hx))]
    obtain ⟨hm, c, hc, hc0⟩ := h e (List.mem_cons_self e es)
    have : usableCount e = c := by
      unfold usableCount
      simp only [hm, hc, Option.getD_some, Option.getD_none]
      split <;> omega
    simp [planTotal, this, hc]

theorem getMaxAmount_plan (plan : List Banknote)
    (h : ∀ e ∈ plan, 0 < e.value ∧ e.minCount = none ∧ ∃ c : Int, e.count = some c ∧ 0 ≤ c)
    (hle : planTotal plan ≤ 9007199254740992) : getMaxAmount plan = planTotal plan := by
  have h1 := maxDispensable_eq_planTotal plan (fun e he => (h e he).2)
  rw [getMaxAmount_eq_maxDispensable plan (fun e he => (h e he).1) (by omega), h1]

theorem buildPlan_entries (R : Int) (inv : List Banknote) (hvalue : ∀ b ∈ inv, 0 < b.value) :
    ∀ e ∈ (buildPlan R inv).banknotes,
      0 < e.value ∧ e.minCount = none ∧ ∃ c : Int, e.count = some c ∧ 0 ≤ c := by
  intro e he
  obtain ⟨b, hb, r, hle, hav, rfl⟩ :=
    foldl_reducer_entries (arraySort sortBanknotesByDesc inv) R e he
  have hv := hvalue b (mem_arraySort.mp hb)
  have hq := floorDivide_pos hv hle
  exact ⟨hv, rfl, _, rfl, le_min (by omega) (le_of_lt hav)⟩

theorem buildPlan_eq_exact (R : Int) (inv : List Banknote)
    (hvalue : ∀ b ∈ inv, 0 < b.value) (hR : R ≤ maxSafeInteger) :
    buildPlan R inv
      = (arraySort sortBanknotesByDesc inv).foldl reducerExact ⟨[], R⟩ := by
  unfold buildPlan
  exact foldl_reducer_eq_exact _ _ (fun b hb => hvalue b (mem_arraySort.mp hb)) hR

theorem buildPlan_total (R : Int) (inv : List Banknote)
    (hvalue : ∀ b ∈ inv, 0 < b.value) (hR : R ≤ maxSafeInteger) :
    planTotal (buildPlan R inv).banknotes + (buildPlan R inv).remainder = R := by
  rw [buildPlan_eq_exact R inv hvalue hR]
  have h := foldl_reducerExact_total (arraySort sortBanknotesByDesc inv) ⟨[], R⟩
  simpa [planTotal] using h

theorem buildPlan_remainder_nonneg (R : Int) (inv : List Banknote)
    (hvalue : ∀ b ∈ inv, 0 < b.value) (hR : R ≤ maxSafeInteger) (h0 : 0 ≤ R) :
    0 ≤ (buildPlan R inv).remainder := by
  rw [buildPlan_eq_exact R inv hvalue hR]
  exact foldl_reducerExact_remainder_nonneg _ _
    (fun b hb => hvalue b (mem_arraySort.mp hb)) h0

theorem buildPlan_of_neg (R : Int) (inv : List Banknote)
    (hvalue : ∀ b ∈ inv, 0 < b.value) (hneg : R < 0) : buildPlan R inv = ⟨[], R⟩ := by
  unfold buildPlan
  apply foldl_reducer_all_skip
  intro b hb
  left
  have := hvalue b (mem_arraySort.mp hb)
  show b.value > R
  omega

theorem buildPlan_getMaxAmount (R : Int) (inv : List Banknote)
    (hvalue : ∀ b ∈ inv, 0 < b.value) (hR : R ≤ maxSafeInteger) :
    getMaxAmount (buildPlan R inv).banknotes = planTotal (buildPlan R inv).banknotes := by
  by_cases hneg : R < 0
  · rw [buildPlan_of_neg R inv hvalue hneg]
    rfl
  · apply getMaxAmount_plan _ (buildPlan_entries R inv hvalue)
    have h1 := buildPlan_total R inv hvalue hR
    have h2 := buildPlan_remainder_nonneg R inv hvalue hR (by omega)
    unfold maxSafeInteger at hR
    omega

theorem getBanknotes_error_iff (R : Int) (inv : List Banknote)
    (hvalue : ∀ b ∈ inv, 0 < b.value) (hR : R ≤ maxSafeInteger) :
    (getBanknotes R inv).result = Except.error "Not enought banknotes" ↔
      (buildPlan R inv).remainder ≠ 0 := by
  have hmax := buildPlan_getMaxAmount R inv hvalue hR
  have htotal := buildPlan_total R inv hvalue hR
  constructor
  · intro herr hrem
    have hok := @getBanknotes_result_of_eq R inv (by omega)
    rw [herr] at hok
    cases hok
  · intro hrem
    exact getBanknotes_result_of_ne (by omega)

theorem getBanknotes_ok_of_coverable (R : Int) (inv : List Banknote)
    (hvalue : ∀ b ∈ inv, 0 < b.value)
    (hchain : ∀ a ∈ inv, ∀ b ∈ inv, a.value < b.value → a.value ∣ b.value)
    (hR : R ≤ maxSafeInteger) (hcover : Coverable R inv) :
    (getBanknotes R inv).result = Except.ok (buildPlan R inv).banknotes := by
  have hsorted : (arraySort sortBanknotesByDesc inv).Pairwise
      (fun a b => b.value ∣ a.value) := by
    apply (arraySort_desc_pairwise inv).imp_of_mem
    intro a b ha hb hle
    rcases lt_or_eq_of_le hle with h | h
    · exact hchain b (mem_arraySort.mp hb) a (mem_arraySort.mp ha) h
    · rw [h]
  have hrem : (buildPlan R inv).remainder = 0 := by
    rw [buildPlan_eq_exact R inv hvalue hR]
    apply foldl_reducerExact_remainder_zero _ _ hsorted
    · exact fun b hb => hvalue b (mem_arraySort.mp hb)
    · exact coverable_perm (arraySort_perm sortBanknotesByDesc inv).symm R hcover
  have hmax := buildPlan_getMaxAmount R inv hvalue hR
  have htotal := buildPlan_total R inv hvalue hR
  exact getBanknotes_result_of_eq (by omega)

theorem mul_usableCount_le_maxDispensable {xs : List Banknote}
    (hvalue : ∀ b ∈ xs, 0 < b.value) {b : Banknote} (hb : b ∈ xs) :
    b.value * usableCount b ≤ maxDispensable xs := by
  induction xs with
  | nil => cases hb
  | cons x xs ih =>
    rw [maxDispensable_cons]
    have hxs : ∀ b ∈ xs, 0 < b.value := fun b hb => hvalue b (List.mem_cons_of_mem x hb)
    have hS := maxDispensable_nonneg xs hxs
    have hx0 := Int.mul_nonneg (le_of_lt (hvalue x (List.mem_cons_self x xs)))
      (usableCount_nonneg x)
    rcases List.mem_cons.mp hb with rfl | hb
    · omega
    · have := ih hxs hb
      omega

theorem getAvailableCount_eq_of_safe {xs : List Banknote}
    (hvalue : ∀ b ∈ xs, 0 < b.value) (hsafe : maxDispensable xs ≤ maxSafeInteger)
    {b : Banknote} (hb : b ∈ xs) : getAvailableCount b = usableCount b := by
  unfold maxSafeInteger at hsafe
  have h1 := mul_usableCount_le_maxDispensable hvalue hb
  have h2 : 1 * usableCount b ≤ b.value * usableCount b :=
    Int.mul_le_mul_of_nonneg_right (by have := hvalue b hb; omega) (usableCount_nonneg b)
  exact getAvailableCount_eq_usableCount (by omega)

theorem buildPlan_le_maxDispensable (R : Int) (inv : List Banknote)
    (hvalue : ∀ b ∈ inv, 0 < b.value) (hsafe : maxDispensable inv ≤ maxSafeInteger) :
    planTotal (buildPlan R inv).banknotes ≤ maxDispensable inv := by
  have h := foldl_reducer_le (arraySort sortBanknotesByDesc inv) ⟨[], R⟩
    (fun b hb => hvalue b (mem_arraySort.mp hb))
  have hmap : (arraySort sortBanknotesByDesc inv).map
        (fun b => b.value * getAvailableCount b)
      = (arraySort sortBanknotesByDesc inv).map (fun b => b.value * usableCount b) := by
    apply List.map_congr_left
    intro b hb
    rw [getAvailableCount_eq_of_safe hvalue hsafe (mem_arraySort.mp hb)]
  rw [hmap] at h
  have hperm := maxDispensable_perm (arraySort_perm sortBanknotesByDesc inv)
  unfold maxDispensable at hperm
  rw [hperm] at h
  simpa [planTotal, buildPlan, maxDispensable] using h

/-! ## The validators -/

theorem getMinAvailableValue_mem {inv : List Banknote}
    (h : ∃ b ∈ inv, 0 < getAvailableCount b) :
    ∃ b ∈ inv, 0 < getAvailableCount b ∧ (getMinAvailableValue inv).result = b.value := by
  obtain ⟨b0, hb0, hav0⟩ := h
  unfold getMinAvailableValue getMinAvailableBanknote
  simp only []
  cases hf : (arraySort sortBanknotesByAsc inv).find? hasAvailableCount with
  | none =>
    rw [List.find?_eq_none] at hf
    exact absurd ((hasAvailableCount_iff b0).mpr hav0) (hf b0 (mem_arraySort.mpr hb0))
  | some b =>
    exact ⟨b, mem_arraySort.mp (List.mem_of_find?_eq_some hf),
      (hasAvailableCount_iff b).mp (List.find?_some hf), rfl⟩

theorem getMinAvailableValue_none {inv : List Banknote}
    (h : ∀ b ∈ inv, getAvailableCount b = 0) : (getMinAvailableValue inv).result = 0 := by
  unfold getMinAvailableValue getMinAvailableBanknote
  simp only []
  have hf : (arraySort sortBanknotesByAsc inv).find? hasAvailableCount = none := by
    rw [List.find?_eq_none]
    intro x hx
    simp [hasAvailableCount, h x (mem_arraySort.mp hx)]
  rw [hf]

theorem getMinAvailableValue_min {inv : List Banknote}
    (h : ∃ b ∈ inv, 0 < getAvailableCount b) :
    ∃ b ∈ inv, 0 < getAvailableCount b ∧ (getMinAvailableValue inv).result = b.value ∧
      ∀ x ∈ inv, 0 < getAvailableCount x → b.value ≤ x.value := by
  obtain ⟨b0, hb0, hav0⟩ := h
  have hsorted := arraySort_asc_pairwise inv
  unfold getMinAvailableValue getMinAvailableBanknote
  simp only []
  cases hf : (arraySort sortBanknotesByAsc inv).find? hasAvailableCount with
  | none =>
    rw [List.find?_eq_none] at hf
    exact absurd ((hasAvailableCount_iff b0).mpr hav0) (hf b0 (mem_arraySort.mpr hb0))
  | some b =>
    refine ⟨b, mem_arraySort.mp (List.mem_of_find?_eq_some hf),
      (hasAvailableCount_iff b).mp (List.find?_some hf), rfl, ?_⟩
    obtain ⟨_, front, back, hsplit, hfront⟩ := List.find?_eq_some.mp hf
    rw [hsplit] at hsorted
    have hback := (List.pairwise_append.mp hsorted).2.1
    rw [List.pairwise_cons] at hback
    intro x hx hxav
    have hxs : x ∈ arraySort sortBanknotesByAsc inv := mem_arraySort.mpr hx
    rw [hsplit] at hxs
    rcases List.mem_append.mp hxs with hx1 | hx1
    · have := hfront x hx1
      rw [(hasAvailableCount_iff x).mpr hxav] at this
      cases this
    · rcases List.mem_cons.mp hx1 with rfl | hx2
      · exact le_refl _
      · exact hback.1 x hx2

theorem getMinAvailableValue_pos {inv : List Banknote} (hvalue : ∀ b ∈ inv, 0 < b.value)
    (h : ∃ b ∈ inv, 0 < getAvailableCount b) : 0 < (getMinAvailableValue inv).result := by
  obtain ⟨b, hb, _, hm⟩ := getMinAvailableValue_mem h
  rw [hm]
  exact hvalue b hb

theorem getValidAmounts_result {amount : Int} {inv : List Banknote}
    (hamount : 0 ≤ amount) (hm : 0 < (getMinAvailableValue inv).result)
    (hsafe : amount + (getMinAvailableValue inv).result ≤ maxSafeInteger) :
    (getValidAmounts amount inv).result
      = { floor := amount - amount % (getMinAvailableValue inv).result,
          ceil := amount - amount % (getMinAvailableValue inv).result
            + (getMinAvailableValue inv).result } := by
  unfold maxSafeInteger at hsafe
  have h0 := Int.emod_nonneg amount (ne_of_gt hm)
  have h1 := Int.emod_lt_of_pos amount hm
  have hfloor : roundNumber (amount - amount % (getMinAvailableValue inv).result)
      = amount - amount % (getMinAvailableValue inv).result :=
    roundNumber_of_safe (by omega) (by omega)
  have hceil : roundNumber (amount - amount % (getMinAvailableValue inv).result
        + (getMinAvailableValue inv).result)
      = amount - amount % (getMinAvailableValue inv).result
        + (getMinAvailableValue inv).result :=
    roundNumber_of_safe (by omega) (by omega)
  unfold getValidAmounts
  simp only []
  rw [if_neg (by omega)]
  simp only [Int.tmod_eq_emod hamount (le_of_lt hm), hfloor, hceil]

theorem isValidAmount_result_iff (amount : Int) (inv : List Banknote) :
    (isValidAmount amount inv).result = true ↔
      0 < amount ∧ 0 < (getMinAvailableValue inv).result ∧
        (getMinAvailableValue inv).result ∣ amount := by
  unfold isValidAmount
  simp only [Bool.and_eq_true, decide_eq_true_eq]
  constructor
  · rintro ⟨⟨h1, h2⟩, h3⟩
    exact ⟨h1, h2, Int.dvd_of_tmod_eq_zero h3⟩
  · rintro ⟨h1, h2, h3⟩
    exact ⟨⟨h1, h2⟩, Int.tmod_eq_zero_of_dvd h3⟩

theorem dvd_sub_emod (a m : Int) : m ∣ a - a % m :=
  Int.dvd_sub_of_emod_eq rfl

theorem multiple_le_floor {a m k : Int} (hm : 0 < m) (hk : m ∣ k) (hle : k ≤ a) :
    k ≤ a - a % m := by
  obtain ⟨j, rfl⟩ := hk
  have h1 := Int.emod_add_ediv a m
  have h2 := Int.emod_lt_of_pos a hm
  have hj : j ≤ a / m := by
    by_contra hc
    have h3 : a / m + 1 ≤ j := by omega
    have h4 : m * (a / m + 1) ≤ m * j := Int.mul_le_mul_of_nonneg_left h3 (le_of_lt hm)
    rw [Int.mul_add, Int.mul_one] at h4
    omega
  have h5 : m * j ≤ m * (a / m) := Int.mul_le_mul_of_nonneg_left hj (le_of_lt hm)
  omega

theorem ceil_le_multiple {a m k : Int} (hm : 0 < m) (hk : m ∣ k) (hlt : a < k) :
    a - a % m + m ≤ k := by
  obtain ⟨j, rfl⟩ := hk
  have h1 := Int.emod_add_ediv a m
  have h2 := Int.emod_nonneg a (ne_of_gt hm)
  have hj : a / m + 1 ≤ j := by
    by_contra hc
    have h3 : j ≤ a / m := by omega
    have h4 : m * j ≤ m * (a / m) := Int.mul_le_mul_of_nonneg_left h3 (le_of_lt hm)
    omega
  have h5 : m * (a / m + 1) ≤ m * j := Int.mul_le_mul_of_nonneg_left hj (le_of_lt hm)
  rw [Int.mul_add, Int.mul_one] at h5
  omega

/-! ## Properties of `getBanknotes` and of the validators -/

/-- C3 (descending order): for an inventory with pairwise distinct values and every
amount, the entries of the plan built by `getBanknotes`, hence of every plan it returns,
are in strictly descending order of value, so no value appears twice. -/
theorem getBanknotes_descending (requestedAmount : Int) (availableBanknotes : List Banknote)
    (hdistinct : (availableBanknotes.map Banknote.value).Nodup) :
    (buildPlan requestedAmount availableBanknotes).banknotes.Pairwise
        (fun e1 e2 => e2.value < e1.value) ∧
      ∀ plan, (getBanknotes requestedAmount availableBanknotes).result = Except.ok plan →
        plan.Pairwise (fun e1 e2 => e2.value < e1.value) := by
  refine ⟨buildPlan_descending requestedAmount availableBanknotes hdistinct, ?_⟩
  intro plan h
  rw [(getBanknotes_result_ok h).2]
  exact buildPlan_descending requestedAmount availableBanknotes hdistinct

/-- Witness of C3: the plan for 5400 on `atmList[4]` given in ascending order is
`[{5000, 1}, {200, 1}, {100, 2}]`. -/
theorem getBanknotes_descending_witness :
    ([{ value := 5000, count := some 1 }, { value := 200, count := some 1 },
      { value := 100, count := some 2 }] : List Banknote).Pairwise
      (fun e1 e2 => e2.value < e1.value) :=
  (getBanknotes_descending 5400 (atmList.getD 4 []).reverse (by decide)).2 _ (by rfl)

/-- C7 (positive counts): for an inventory with positive values and every amount, every
entry of the plan built by `getBanknotes` carries a count `≥ 1`; a record of which
nothing is taken contributes no entry. -/
theorem getBanknotes_positive_counts (requestedAmount : Int)
    (availableBanknotes : List Banknote)
    (hvalue : ∀ b ∈ availableBanknotes, 0 < b.value) :
    ∀ e ∈ (buildPlan requestedAmount availableBanknotes).banknotes,
      ∃ c : Int, e.count = some c ∧ 1 ≤ c := by
  intro e he
  obtain ⟨b, hb, r, hle, hav, rfl⟩ :=
    foldl_reducer_entries (arraySort sortBanknotesByDesc availableBanknotes) requestedAmount e he
  exact ⟨_, rfl, le_min (floorDivide_pos (hvalue b (mem_arraySort.mp hb)) hle) hav⟩

/-- Witness of C7: the plan for 100000 on `atmList[0]` is the single entry `{5000, 20}`;
the records 1000, 200 and 100 are omitted. -/
theorem getBanknotes_positive_counts_witness :
    (buildPlan 100000 (atmList.getD 0 [])).banknotes = [{ value := 5000, count := some 20 }] ∧
      ∃ c : Int, ({ value := 5000, count := some 20 } : Banknote).count = some c ∧ 1 ≤ c :=
  ⟨by rfl, getBanknotes_positive_counts 100000 (atmList.getD 0 []) (by decide)
    { value := 5000, count := some 20 } (by decide)⟩

/-- C8 (no usable stock): when no record has a usable count (`count ≤ minCount` for every
record), `getBanknotes` throws the error `Not enought banknotes` for every positive
amount. -/
theorem getBanknotes_no_usable_stock (requestedAmount : Int)
    (availableBanknotes : List Banknote)
    (hstock : ∀ b ∈ availableBanknotes, b.count.getD 0 ≤ b.minCount.getD 0)
    (hpos : 0 < requestedAmount) :
    (getBanknotes requestedAmount availableBanknotes).result
      = Except.error "Not enought banknotes" := by
  apply getBanknotes_result_of_ne
  unfold buildPlan
  rw [foldl_reducer_all_skip]
  · simp only [getMaxAmount, List.foldl_nil]
    omega
  · intro b hb
    right
    have h := hstock b (mem_arraySort.mp hb)
    unfold getAvailableCount
    simp only []
    rw [if_neg (by omega)]

/-- Witness of C8: 251600 on the empty machine `atmList[1]`. -/
theorem getBanknotes_no_usable_stock_witness :
    (getBanknotes 251600 (atmList.getD 1 [])).result = Except.error "Not enought banknotes" :=
  getBanknotes_no_usable_stock 251600 (atmList.getD 1 []) (by decide) (by decide)

/-- C9 (zero amount): for an inventory whose records all have a positive value,
`getBanknotes` with `requestedAmount = 0` does not throw and returns the empty plan. -/
theorem getBanknotes_zero_amount (availableBanknotes : List Banknote)
    (hvalue : ∀ b ∈ availableBanknotes, 0 < b.value) :
    (getBanknotes 0 availableBanknotes).result = Except.ok [] := by
  have hfold : buildPlan 0 availableBanknotes = ⟨[], 0⟩ := by
    unfold buildPlan
    apply foldl_reducer_all_skip
    intro b hb
    left
    exact hvalue b (mem_arraySort.mp hb)
  have h := @getBanknotes_result_of_eq 0 availableBanknotes
    (by rw [hfold]; rfl)
  rw [h, hfold]

/-- Witness of C9: the amount 0 on `atmList[0]`. -/
theorem getBanknotes_zero_amount_witness :
    (getBanknotes 0 (atmList.getD 0 [])).result = Except.ok [] :=
  getBanknotes_zero_amount (atmList.getD 0 []) (by decide)

/-- C10, the claim as stated fails: `sort` works in place, so the caller's array is
reordered.  `getBanknotes` leaves the array `[{100, 1}, {5000, 1}]` as
`[{5000, 1}, {100, 1}]`; `isValidAmount` and `getValidAmounts` leave `atmList[0]`, given
in descending order, in ascending order. -/
theorem inventory_reordered :
    (getBanknotes 100 [{ value := 100, count := some 1 }, { value := 5000, count := some 1 }]).array
        = [{ value := 5000, count := some 1 }, { value := 100, count := some 1 }] ∧
      (getBanknotes 100
          [{ value := 100, count := some 1 }, { value := 5000, count := some 1 }]).array
        ≠ [{ value := 100, count := some 1 }, { value := 5000, count := some 1 }] ∧
      (isValidAmount 100 (atmList.getD 0 [])).array = (atmList.getD 0 []).reverse ∧
      (isValidAmount 100 (atmList.getD 0 [])).array ≠ atmList.getD 0 [] ∧
      (getValidAmounts 5050 (atmList.getD 0 [])).array = (atmList.getD 0 []).reverse ∧
      (getValidAmounts 5050 (atmList.getD 0 [])).array ≠ atmList.getD 0 [] :=
  ⟨by decide, by decide, by decide, by decide, by decide, by decide⟩

/-- C10 as amended (inventory records are kept, their order is not): after a call of
`getBanknotes`, `isValidAmount` or `getValidAmounts`, whether it returns or throws, the
caller's array holds the same records as before, with the same value, count and minCount
(it is a permutation of the array before the call), ordered by value: descending after
`getBanknotes`, ascending after `isValidAmount` and `getValidAmounts`. -/
theorem inventory_records_kept (amount : Int) (availableBanknotes : List Banknote) :
    ((getBanknotes amount availableBanknotes).array.Perm availableBanknotes ∧
      (getBanknotes amount availableBanknotes).array.Pairwise
        (fun a b => b.value ≤ a.value)) ∧
    ((isValidAmount amount availableBanknotes).array.Perm availableBanknotes ∧
      (isValidAmount amount availableBanknotes).array.Pairwise
        (fun a b => a.value ≤ b.value)) ∧
    ((getValidAmounts amount availableBanknotes).array.Perm availableBanknotes ∧
      (getValidAmounts amount availableBanknotes).array.Pairwise
        (fun a b => a.value ≤ b.value)) := by
  have hv : (getValidAmounts amount availableBanknotes).array
      = arraySort sortBanknotesByAsc availableBanknotes := by
    unfold getValidAmounts
    simp only []
    split <;> rfl
  refine ⟨⟨arraySort_perm _ _, arraySort_desc_pairwise _⟩,
    ⟨arraySort_perm _ _, arraySort_asc_pairwise _⟩, ?_, ?_⟩
  · rw [hv]; exact arraySort_perm _ _
  · rw [hv]; exact arraySort_asc_pairwise _

/-- C11 (idempotence): for an inventory with pairwise distinct values and every amount, a
second call of `getBanknotes` with the same amount on the array as the first call left it
(sorted descending in place) gives the outcome of the first call, the same plan or the
same error, and leaves the array as it is. -/
theorem getBanknotes_idempotent (requestedAmount : Int) (availableBanknotes : List Banknote)
    (hdistinct : (availableBanknotes.map Banknote.value).Nodup) :
    (getBanknotes requestedAmount
        (getBanknotes requestedAmount availableBanknotes).array).result
      = (getBanknotes requestedAmount availableBanknotes).result ∧
    (getBanknotes requestedAmount
        (getBanknotes requestedAmount availableBanknotes).array).array
      = (getBanknotes requestedAmount availableBanknotes).array := by
  have harr : (getBanknotes requestedAmount availableBanknotes).array
      = arraySort sortBanknotesByDesc availableBanknotes := rfl
  have hcall := getBanknotes_congr requestedAmount
    (arraySort_desc_eq_of_perm (arraySort_perm sortBanknotesByDesc availableBanknotes)
      (((arraySort_perm sortBanknotesByDesc availableBanknotes).map
        Banknote.value).nodup_iff.mpr hdistinct))
  rw [harr, hcall]
  exact ⟨rfl, rfl⟩

/-- Witness of C11: 5400 on `atmList[4]` given in ascending order, twice. -/
theorem getBanknotes_idempotent_witness :
    (getBanknotes 5400 (getBanknotes 5400 (atmList.getD 4 []).reverse).array).result
      = (getBanknotes 5400 (atmList.getD 4 []).reverse).result ∧
    (getBanknotes 5400 (getBanknotes 5400 (atmList.getD 4 []).reverse).array).array
      = (getBanknotes 5400 (atmList.getD 4 []).reverse).array :=
  getBanknotes_idempotent 5400 (atmList.getD 4 []).reverse (by decide)

/-- C17 (order independence): for two inventories that are permutations of each other and
have pairwise distinct values, and every amount, `getBanknotes` gives the same outcome on
both (the same plan, or the error on both), and `getMinAvailableValue`, `isValidAmount`
and `getValidAmounts` return the same results on both. -/
theorem order_independent (amount : Int) (inventory1 inventory2 : List Banknote)
    (hperm : inventory1.Perm inventory2)
    (hdistinct : (inventory1.map Banknote.value).Nodup) :
    (getBanknotes amount inventory1).result = (getBanknotes amount inventory2).result ∧
    (getMinAvailableValue inventory1).result = (getMinAvailableValue inventory2).result ∧
    (isValidAmount amount inventory1).result = (isValidAmount amount inventory2).result ∧
    (getValidAmounts amount inventory1).result = (getValidAmounts amount inventory2).result := by
  have hdesc := getBanknotes_congr amount (arraySort_desc_eq_of_perm hperm hdistinct)
  have hasc := getMinAvailableValue_congr (arraySort_asc_eq_of_perm hperm hdistinct)
  refine ⟨by rw [hdesc], by rw [hasc], ?_, ?_⟩
  · unfold isValidAmount
    rw [hasc]
  · unfold getValidAmounts
    rw [hasc]

/-- Witness of C17: `atmList[4]` and its reversal, with the amount 5400. -/
theorem order_independent_witness :
    (getBanknotes 5400 (atmList.getD 4 [])).result
      = (getBanknotes 5400 (atmList.getD 4 []).reverse).result ∧
    (getMinAvailableValue (atmList.getD 4 [])).result
      = (getMinAvailableValue (atmList.getD 4 []).reverse).result ∧
    (isValidAmount 5400 (atmList.getD 4 [])).result
      = (isValidAmount 5400 (atmList.getD 4 []).reverse).result ∧
    (getValidAmounts 5400 (atmList.getD 4 [])).result
      = (getValidAmounts 5400 (atmList.getD 4 []).reverse).result :=
  order_independent 5400 (atmList.getD 4 []) (atmList.getD 4 []).reverse
    (List.reverse_perm _).symm (by decide)

/-- C14 (smallest usable value): `getMinAvailableValue` returns 0 when no record is
usable, and otherwise the minimum value among the records whose usable count is `> 0`:
the value of a usable record that is `≤` the value of every usable record.  No assumption
on the inventory is needed. -/
theorem getMinAvailableValue_smallest_usable (banknotes : List Banknote) :
    ((∀ b ∈ banknotes, getAvailableCount b = 0) →
      (getMinAvailableValue banknotes).result = 0) ∧
    ((∃ b ∈ banknotes, 0 < getAvailableCount b) →
      ∃ b ∈ banknotes, 0 < getAvailableCount b ∧
        (getMinAvailableValue banknotes).result = b.value ∧
        ∀ x ∈ banknotes, 0 < getAvailableCount x →
          (getMinAvailableValue banknotes).result ≤ x.value) := by
  refine ⟨getMinAvailableValue_none, ?_⟩
  intro h
  obtain ⟨b, hb, hav, hm, hmin⟩ := getMinAvailableValue_min h
  exact ⟨b, hb, hav, hm, fun x hx hxav => by rw [hm]; exact hmin x hx hxav⟩

/-- Witness of C14: no record of `atmList[1]` is usable and the result is 0; in
`atmList[2]` the 200 record is fully reserved and the result is 100. -/
theorem getMinAvailableValue_smallest_usable_witness :
    (getMinAvailableValue (atmList.getD 1 [])).result = 0 ∧
    ∃ b ∈ atmList.getD 2 [], 0 < getAvailableCount b ∧
      (getMinAvailableValue (atmList.getD 2 [])).result = b.value ∧
      ∀ x ∈ atmList.getD 2 [], 0 < getAvailableCount x →
        (getMinAvailableValue (atmList.getD 2 [])).result ≤ x.value :=
  ⟨(getMinAvailableValue_smallest_usable (atmList.getD 1 [])).1 (by decide),
   (getMinAvailableValue_smallest_usable (atmList.getD 2 [])).2
     ⟨{ value := 100, count := some 1 }, by decide, by decide⟩⟩

/-- C16 (no backtracking): there are a well-formed inventory (positive, pairwise distinct
values, counts and reserves `≥ 0`) and a positive amount that some choice of counts within
the usable counts covers exactly, for which `getBanknotes` nevertheless throws: the
inventory `[{5, 1}, {3, 2}]` and the amount 6, covered by two banknotes of 3, while the
greedy pass takes the 5 first and is left with 1. -/
theorem getBanknotes_no_backtracking :
    ∃ (inventory : List Banknote) (amount : Int),
      (∀ b ∈ inventory, 0 < b.value ∧ 0 ≤ b.count.getD 0 ∧ 0 ≤ b.minCount.getD 0) ∧
      (inventory.map Banknote.value).Nodup ∧
      0 < amount ∧
      Coverable amount inventory ∧
      (getBanknotes amount inventory).result = Except.error "Not enought banknotes" :=
  ⟨[{ value := 5, count := some 1 }, { value := 3, count := some 2 }], 6,
    by decide, by decide, by decide,
    ⟨[0, 2], List.Forall₂.cons (by decide) (List.Forall₂.cons (by decide) List.Forall₂.nil),
      by decide⟩,
    by rfl⟩

/-- C20 (the shipped machine): for the inventory hard-coded in `runAtm`, every amount that
`isValidAmount` accepts and that does not exceed `getMaxAmount` of that inventory is
dispensed by `getBanknotes` without error, both on the array as written and on the array
as `isValidAmount` leaves it (sorted ascending), with the same plan. -/
theorem runAtm_dispenses_valid_amounts (requestedAmount : Int)
    (hvalid : (isValidAmount requestedAmount runAtmBanknotes).result = true)
    (hmax : requestedAmount ≤ getMaxAmount runAtmBanknotes) :
    ∃ plan, (getBanknotes requestedAmount runAtmBanknotes).result = Except.ok plan ∧
      (getBanknotes requestedAmount
        (isValidAmount requestedAmount runAtmBanknotes).array).result = Except.ok plan := by
  obtain ⟨hpos, _, hdvd⟩ := (isValidAmount_result_iff requestedAmount runAtmBanknotes).mp hvalid
  have hm : (getMinAvailableValue runAtmBanknotes).result = 100 := by decide
  have hceil : getMaxAmount runAtmBanknotes = 251600 := by decide
  rw [hm] at hdvd
  rw [hceil] at hmax
  have hok := getBanknotes_ok_of_coverable requestedAmount runAtmBanknotes (by decide)
    (by decide) (by unfold maxSafeInteger; omega)
    (runAtmBanknotes_coverable requestedAmount hpos hdvd hmax)
  refine ⟨_, hok, ?_⟩
  have harr : (isValidAmount requestedAmount runAtmBanknotes).array
      = arraySort sortBanknotesByAsc runAtmBanknotes := rfl
  rw [harr, getBanknotes_congr requestedAmount
    (arraySort_desc_eq_of_perm (arraySort_perm sortBanknotesByAsc runAtmBanknotes)
      (by decide))]
  exact hok

/-- Witness of C20: the largest accepted amount, 251600, which empties the machine. -/
theorem runAtm_dispenses_valid_amounts_witness :
    getMaxAmount runAtmBanknotes = 251600 ∧
    ∃ plan, (getBanknotes 251600 runAtmBanknotes).result = Except.ok plan ∧
      (getBanknotes 251600 (isValidAmount 251600 runAtmBanknotes).array).result
        = Except.ok plan :=
  ⟨by decide, runAtm_dispenses_valid_amounts 251600 (by decide) (by decide)⟩

/-- C1, the claim as stated fails beyond the safe integers: on the inventory
`[{94906267, 94906269}]` the amount 9007199705687824 is dispensed as
`[{94906267, 94906269}]`, whose exact total is 9007199705687823; the product is rounded
to the amount, so the check of `getBanknotes` passes. -/
theorem exact_cover_fails_beyond_safe_integers :
    (getBanknotes 9007199705687824 [{ value := 94906267, count := some 94906269 }]).result
      = Except.ok [{ value := 94906267, count := some 94906269 }] ∧
    planTotal [{ value := 94906267, count := some 94906269 }] = 9007199705687823 :=
  ⟨by rfl, by decide⟩

/-- C1 as amended (exact cover): for every inventory with positive values and every
requested amount up to `Number.MAX_SAFE_INTEGER`, whenever `getBanknotes` returns a plan,
the sum of `value × count` over the entries of the plan equals `requestedAmount`
exactly.  Nothing is assumed of the counts and reserves. -/
theorem getBanknotes_exact_cover (requestedAmount : Int)
    (availableBanknotes plan : List Banknote)
    (hvalue : ∀ b ∈ availableBanknotes, 0 < b.value)
    (hsafe : requestedAmount ≤ maxSafeInteger)
    (h : (getBanknotes requestedAmount availableBanknotes).result = Except.ok plan) :
    planTotal plan = requestedAmount := by
  obtain ⟨hmax, hplan⟩ := getBanknotes_result_ok h
  rw [buildPlan_getMaxAmount requestedAmount availableBanknotes hvalue hsafe] at hmax
  rw [hplan]
  exact hmax

/-- Witness of C1 as amended: emptying `atmList[0]` with the amount 251600. -/
theorem getBanknotes_exact_cover_witness :
    planTotal [{ value := 5000, count := some 40 }, { value := 1000, count := some 40 },
      { value := 200, count := some 38 }, { value := 100, count := some 40 }] = 251600 :=
  getBanknotes_exact_cover 251600 (atmList.getD 0 []) _ (by decide) (by decide) (by rfl)

/-- C2, the claim as stated fails beyond the safe integers: on the well-formed inventory
`[{ value: 1, count: 9007199254740996, minCount: 1 }]` the amount 9007199254740996 is
dispensed as `[{1, 9007199254740996}]`, the whole stock: the usable count
9007199254740995 is rounded to 9007199254740996, and nothing of the reserve is left. -/
theorem reserve_broken_beyond_safe_integers :
    (getBanknotes 9007199254740996
        [{ value := 1, count := some 9007199254740996, minCount := some 1 }]).result
      = Except.ok [{ value := 1, count := some 9007199254740996 }] ∧
    usableCount { value := 1, count := some 9007199254740996, minCount := some 1 }
      = 9007199254740995 ∧
    getAvailableCount { value := 1, count := some 9007199254740996, minCount := some 1 }
      = 9007199254740996 :=
  ⟨by rfl, by decide, by decide⟩

/-- C2 as amended (reserve respect): for every inventory with positive values and every
amount up to `Number.MAX_SAFE_INTEGER`, every entry `{ value, count }` of the plan built
by `getBanknotes` comes from an inventory record with that value, its count is at most
the exact usable count `count − minCount` of that record, and at least `minCount`
banknotes of the record are left. -/
theorem getBanknotes_reserve_respect (requestedAmount : Int)
    (availableBanknotes : List Banknote)
    (hvalue : ∀ b ∈ availableBanknotes, 0 < b.value)
    (hsafe : requestedAmount ≤ maxSafeInteger) :
    ∀ e ∈ (buildPlan requestedAmount availableBanknotes).banknotes,
      ∃ b ∈ availableBanknotes, ∃ c : Int,
        e = { value := b.value, count := some c } ∧
        c ≤ usableCount b ∧
        b.minCount.getD 0 ≤ b.count.getD 0 - c := by
  rw [buildPlan_eq_exact requestedAmount availableBanknotes hvalue hsafe]
  intro e he
  obtain ⟨b, hb, r, _, hav, rfl⟩ :=
    foldl_reducerExact_entries (arraySort sortBanknotesByDesc availableBanknotes)
      requestedAmount e he
  refine ⟨b, mem_arraySort.mp hb, _, rfl, min_le_right _ _, ?_⟩
  have hle : min (Int.fdiv r b.value) (usableCount b) ≤ usableCount b :=
    min_le_right _ _
  unfold usableCount at hav hle
  split at hav
  · rw [if_pos (by assumption)] at hle
    unfold usableCount
    rw [if_pos (by assumption)]
    omega
  · omega

/-- Witness of C2 as amended: the 200 entry of the plan for 5400 on `atmList[4]` has
count 1, the usable count of the record `{ value: 200, count: 3, minCount: 2 }`. -/
theorem getBanknotes_reserve_respect_witness :
    ∃ b ∈ atmList.getD 4 [], ∃ c : Int,
      ({ value := 200, count := some 1 } : Banknote) = { value := b.value, count := some c } ∧
      c ≤ usableCount b ∧ b.minCount.getD 0 ≤ b.count.getD 0 - c :=
  getBanknotes_reserve_respect 5400 (atmList.getD 4 []) (by decide) (by decide)
    { value := 200, count := some 1 } (by decide)

/-- C4, the claim as stated fails: on the well-formed inventory `atmList[0]` the amount 0
is not valid, yet `getBanknotes` returns the empty plan; on the well-formed inventory
`[{5, 1}, {3, 1}]` the amount 5 is not valid (5 is no multiple of the smallest usable
value 3), yet `getBanknotes` returns the plan `[{5, 1}]`; and beyond the safe integers,
on `[{94906267, 94906269}]` the amount 9007199705687824 is not valid (it leaves the
remainder 1), yet `getBanknotes` returns a plan. -/
theorem isValidAmount_not_necessary :
    ((isValidAmount 0 (atmList.getD 0 [])).result = false ∧
      (getBanknotes 0 (atmList.getD 0 [])).result = Except.ok []) ∧
    ((isValidAmount 5 [{ value := 5, count := some 1 }, { value := 3, count := some 1 }]).result
        = false ∧
      (getBanknotes 5 [{ value := 5, count := some 1 }, { value := 3, count := some 1 }]).result
        = Except.ok [{ value := 5, count := some 1 }]) ∧
    ((isValidAmount 9007199705687824 [{ value := 94906267, count := some 94906269 }]).result
        = false ∧
      (getBanknotes 9007199705687824 [{ value := 94906267, count := some 94906269 }]).result
        = Except.ok [{ value := 94906267, count := some 94906269 }]) :=
  ⟨⟨by rfl, by rfl⟩, ⟨by rfl, by rfl⟩, ⟨by rfl, by rfl⟩⟩

/-- C4 as amended (satisfiability necessity): for an inventory with positive values in
which the smallest usable value divides the value of every usable record, and for every
amount other than 0 and up to `Number.MAX_SAFE_INTEGER`, `getBanknotes` throws when
`isValidAmount` is false; equivalently, every such amount for which `getBanknotes`
returns a plan is valid, that is positive and a multiple of the smallest usable value. -/
theorem getBanknotes_requires_valid_amount (requestedAmount : Int)
    (availableBanknotes : List Banknote)
    (hvalue : ∀ b ∈ availableBanknotes, 0 < b.value)
    (hdiv : ∀ b ∈ availableBanknotes, 0 < getAvailableCount b →
      (getMinAvailableValue availableBanknotes).result ∣ b.value)
    (hamount : requestedAmount ≠ 0)
    (hsafe : requestedAmount ≤ maxSafeInteger) :
    ((isValidAmount requestedAmount availableBanknotes).result = false →
        (getBanknotes requestedAmount availableBanknotes).result
          = Except.error "Not enought banknotes") ∧
      ∀ plan, (getBanknotes requestedAmount availableBanknotes).result = Except.ok plan →
        (isValidAmount requestedAmount availableBanknotes).result = true ∧
        0 < requestedAmount ∧
        (getMinAvailableValue availableBanknotes).result ∣ requestedAmount := by
  have key : ∀ plan, (getBanknotes requestedAmount availableBanknotes).result = Except.ok plan →
      (isValidAmount requestedAmount availableBanknotes).result = true ∧
      0 < requestedAmount ∧
      (getMinAvailableValue availableBanknotes).result ∣ requestedAmount := by
    intro plan h
    obtain ⟨hmax, _⟩ := getBanknotes_result_ok h
    rw [buildPlan_getMaxAmount requestedAmount availableBanknotes hvalue hsafe] at hmax
    have hentries := foldl_reducer_entries
      (arraySort sortBanknotesByDesc availableBanknotes) requestedAmount
    have hbp : (buildPlan requestedAmount availableBanknotes).banknotes
        = ((arraySort sortBanknotesByDesc availableBanknotes).foldl reducer
            ⟨[], requestedAmount⟩).banknotes := rfl
    rw [← hbp] at hentries
    -- every entry is a positive number of banknotes of a usable record
    have hnonneg : 0 ≤ planTotal (buildPlan requestedAmount availableBanknotes).banknotes := by
      apply planTotal_nonneg
      intro e he
      obtain ⟨b, hb, r, hle, hav, rfl⟩ := hentries e he
      have hv := hvalue b (mem_arraySort.mp hb)
      have hq := floorDivide_pos hv hle
      exact Int.mul_nonneg (le_of_lt hv) (le_min (by omega) (le_of_lt hav))
    have hdvd : (getMinAvailableValue availableBanknotes).result
        ∣ planTotal (buildPlan requestedAmount availableBanknotes).banknotes := by
      apply dvd_planTotal
      intro e he
      obtain ⟨b, hb, r, hle, hav, rfl⟩ := hentries e he
      exact Dvd.dvd.mul_right (hdiv b (mem_arraySort.mp hb) hav) _
    rw [hmax] at hnonneg hdvd
    have hpos : 0 < requestedAmount := by omega
    -- the plan is not empty, so some record is usable
    have hex : ∃ b ∈ availableBanknotes, 0 < getAvailableCount b := by
      cases hl : (buildPlan requestedAmount availableBanknotes).banknotes with
      | nil =>
        rw [hl] at hmax
        simp only [planTotal, List.map_nil, List.sum_nil] at hmax
        exact absurd hmax.symm hamount
      | cons e es =>
        obtain ⟨b, hb, _, _, hav, _⟩ := hentries e (by rw [hl]; exact List.mem_cons_self e es)
        exact ⟨b, mem_arraySort.mp hb, hav⟩
    obtain ⟨b, hb, _, hm⟩ := getMinAvailableValue_mem hex
    have hmpos : 0 < (getMinAvailableValue availableBanknotes).result := by
      rw [hm]; exact hvalue b hb
    exact ⟨(isValidAmount_result_iff _ _).mpr ⟨hpos, hmpos, hdvd⟩, hpos, hdvd⟩
  refine ⟨?_, key⟩
  intro hfalse
  rcases getBanknotes_result_cases requestedAmount availableBanknotes with h | h
  · exact h
  · have := (key _ h).1
    rw [hfalse] at this
    cases this

/-- Witness of C4 as amended: on `atmList[0]` (smallest usable value 100, which divides
200, 1000 and 5000) the amount 5450 is not valid and is refused, and the amount 5400 is
dispensed and valid. -/
theorem getBanknotes_requires_valid_amount_witness :
    (getBanknotes 5450 (atmList.getD 0 [])).result = Except.error "Not enought banknotes" ∧
      ((isValidAmount 5400 (atmList.getD 0 [])).result = true ∧ (0 : Int) < 5400 ∧
        (getMinAvailableValue (atmList.getD 0 [])).result ∣ 5400) :=
  ⟨(getBanknotes_requires_valid_amount 5450 (atmList.getD 0 []) (by decide) (by decide)
      (by decide) (by decide)).1 (by rfl),
   (getBanknotes_requires_valid_amount 5400 (atmList.getD 0 []) (by decide) (by decide)
      (by decide) (by decide)).2 _ (by rfl)⟩

/-- C5, the claim as stated fails beyond the safe integers: for the array
`[{2, 1}, {3, 1}, {4503599627370496, 2}]` the rounded sum of `getMaxAmount` is
9007199254740996, and `getBanknotes` returns a plan for the greater amount
9007199254740998. -/
theorem ceiling_exceeded_beyond_safe_integers :
    getMaxAmount [{ value := 2, count := some 1 }, { value := 3, count := some 1 },
      { value := 4503599627370496, count := some 2 }] = 9007199254740996 ∧
    (getBanknotes 9007199254740998 [{ value := 2, count := some 1 },
      { value := 3, count := some 1 }, { value := 4503599627370496, count := some 2 }]).result
      = Except.ok [{ value := 4503599627370496, count := some 2 },
          { value := 3, count := some 1 }, { value := 2, count := some 1 }] :=
  ⟨by decide, by rfl⟩

/-- C5 as amended (ceiling): for an inventory with positive values whose exact total
`Σ value × usable count` is at most `Number.MAX_SAFE_INTEGER`, `getBanknotes` throws for
every amount greater than `getMaxAmount(inventory)`, and the total of a plan it returns
never exceeds `getMaxAmount(inventory)`, which is that exact total. -/
theorem getBanknotes_ceiling (requestedAmount : Int) (availableBanknotes : List Banknote)
    (hvalue : ∀ b ∈ availableBanknotes, 0 < b.value)
    (hsafe : maxDispensable availableBanknotes ≤ maxSafeInteger) :
    getMaxAmount availableBanknotes = maxDispensable availableBanknotes ∧
    (getMaxAmount availableBanknotes < requestedAmount →
        (getBanknotes requestedAmount availableBanknotes).result
          = Except.error "Not enought banknotes") ∧
      ∀ plan, (getBanknotes requestedAmount availableBanknotes).result = Except.ok plan →
        planTotal plan ≤ getMaxAmount availableBanknotes := by
  have hle := buildPlan_le_maxDispensable requestedAmount availableBanknotes hvalue hsafe
  have hinv : getMaxAmount availableBanknotes = maxDispensable availableBanknotes :=
    getMaxAmount_eq_maxDispensable availableBanknotes hvalue
      (by unfold maxSafeInteger at hsafe; omega)
  have hplan : getMaxAmount (buildPlan requestedAmount availableBanknotes).banknotes
      = planTotal (buildPlan requestedAmount availableBanknotes).banknotes :=
    getMaxAmount_plan _ (buildPlan_entries requestedAmount availableBanknotes hvalue)
      (by unfold maxSafeInteger at hsafe; omega)
  refine ⟨hinv, ?_, ?_⟩
  · intro hgt
    apply getBanknotes_result_of_ne
    omega
  · intro plan h
    rw [(getBanknotes_result_ok h).2]
    omega

/-- Witness of C5 as amended: `atmList[0]` holds 251600, so 251700 is refused, and the
plan for 5400 totals 5400. -/
theorem getBanknotes_ceiling_witness :
    (getBanknotes 251700 (atmList.getD 0 [])).result = Except.error "Not enought banknotes" ∧
      planTotal [{ value := 5000, count := some 1 }, { value := 200, count := some 2 }]
        ≤ getMaxAmount (atmList.getD 0 []) :=
  ⟨(getBanknotes_ceiling 251700 (atmList.getD 0 []) (by decide) (by decide)).2.1 (by decide),
   (getBanknotes_ceiling 5400 (atmList.getD 0 []) (by decide) (by decide)).2.2 _ (by rfl)⟩

/-- C6, the claim as stated fails beyond the safe integers: for the well-formed inventory
`[{94906267, 94906267}]` the rounded `getMaxAmount` is 9007199515875288 (the exact total
is 9007199515875289), and `getBanknotes` throws for that amount, having built the plan
`[{94906267, 94906266}]`. -/
theorem machine_not_emptied_beyond_safe_integers :
    getMaxAmount [{ value := 94906267, count := some 94906267 }] = 9007199515875288 ∧
    (getBanknotes (getMaxAmount [{ value := 94906267, count := some 94906267 }])
        [{ value := 94906267, count := some 94906267 }]).result
      = Except.error "Not enought banknotes" ∧
    (buildPlan 9007199515875288 [{ value := 94906267, count := some 94906267 }]).banknotes
      = [{ value := 94906267, count := some 94906266 }] :=
  ⟨by decide, by rfl, by decide⟩

/-- C6 as amended (emptying the machine): for an inventory with positive, pairwise
distinct values whose exact total `Σ value × usable count` is at most
`Number.MAX_SAFE_INTEGER`, `getBanknotes` with `requestedAmount = getMaxAmount(inventory)`
does not throw; the plan it returns is in strictly descending order of value and its
entries are exactly the records with a usable count `> 0`, each with its full usable
count `count − minCount`. -/
theorem getBanknotes_empties_machine (availableBanknotes : List Banknote)
    (hvalue : ∀ b ∈ availableBanknotes, 0 < b.value)
    (hdistinct : (availableBanknotes.map Banknote.value).Nodup)
    (hsafe : maxDispensable availableBanknotes ≤ maxSafeInteger) :
    ∃ plan, (getBanknotes (getMaxAmount availableBanknotes) availableBanknotes).result
          = Except.ok plan ∧
      plan.Pairwise (fun e1 e2 => e2.value < e1.value) ∧
      ∀ e, e ∈ plan ↔ ∃ b ∈ availableBanknotes, 0 < getAvailableCount b ∧
        getAvailableCount b = b.count.getD 0 - b.minCount.getD 0 ∧
        e = { value := b.value, count := some (getAvailableCount b) } := by
  have hsorted : ∀ b ∈ arraySort sortBanknotesByDesc availableBanknotes, 0 < b.value :=
    fun b hb => hvalue b (mem_arraySort.mp hb)
  have hinv : getMaxAmount availableBanknotes = maxDispensable availableBanknotes :=
    getMaxAmount_eq_maxDispensable availableBanknotes hvalue
      (by unfold maxSafeInteger at hsafe; omega)
  have hR : getMaxAmount availableBanknotes ≤ maxSafeInteger := by rw [hinv]; exact hsafe
  have hfold := foldl_reducerExact_full (arraySort sortBanknotesByDesc availableBanknotes)
    ⟨[], getMaxAmount availableBanknotes⟩ 0 (le_refl 0) hsorted
    (by simp [hinv,
      maxDispensable_perm (arraySort_perm sortBanknotesByDesc availableBanknotes)])
  have hplan : (buildPlan (getMaxAmount availableBanknotes) availableBanknotes)
      = { banknotes := ((arraySort sortBanknotesByDesc availableBanknotes).filter
            hasAvailableCount).map
            (fun b => { value := b.value, count := some (usableCount b) }),
          remainder := 0 } := by
    rw [buildPlan_eq_exact _ _ hvalue hR, hfold]
    simp
  have htotal := buildPlan_total (getMaxAmount availableBanknotes) availableBanknotes
    hvalue hR
  have hmax := buildPlan_getMaxAmount (getMaxAmount availableBanknotes)
    availableBanknotes hvalue hR
  have hdesc := buildPlan_descending (getMaxAmount availableBanknotes) availableBanknotes
    hdistinct
  have hrem : (buildPlan (getMaxAmount availableBanknotes) availableBanknotes).remainder
      = 0 := by rw [hplan]
  refine ⟨_, getBanknotes_result_of_eq (by omega), hdesc, ?_⟩
  intro e
  rw [hplan]
  simp only [List.mem_map, List.mem_filter, mem_arraySort]
  constructor
  · rintro ⟨b, ⟨hb, hav⟩, rfl⟩
    have hga := getAvailableCount_eq_of_safe hvalue hsafe hb
    have hpos := (hasAvailableCount_iff b).mp hav
    refine ⟨b, hb, hpos, ?_, by rw [hga]⟩
    rw [hga] at hpos ⊢
    unfold usableCount at hpos ⊢
    split
    · rfl
    · rw [if_neg (by assumption)] at hpos
      omega
  · rintro ⟨b, hb, hav, _, rfl⟩
    have hga := getAvailableCount_eq_of_safe hvalue hsafe hb
    exact ⟨b, ⟨hb, (hasAvailableCount_iff b).mpr hav⟩, by rw [hga]⟩

/-- Witness of C6 as amended: `atmList[0]` (positive distinct values, total 251600) is
emptied by the amount `getMaxAmount(atmList[0]) = 251600`. -/
theorem getBanknotes_empties_machine_witness :
    ∃ plan, (getBanknotes (getMaxAmount (atmList.getD 0 [])) (atmList.getD 0 [])).result
          = Except.ok plan ∧
      plan.Pairwise (fun e1 e2 => e2.value < e1.value) ∧
      ∀ e, e ∈ plan ↔ ∃ b ∈ atmList.getD 0 [], 0 < getAvailableCount b ∧
        getAvailableCount b = b.count.getD 0 - b.minCount.getD 0 ∧
        e = { value := b.value, count := some (getAvailableCount b) } :=
  getBanknotes_empties_machine (atmList.getD 0 []) (by decide) (by decide) (by decide)

/-- C12, the claim as stated fails beyond the safe integers: for the amount
9007199254740991 on `[{3, 1}]` (smallest usable value 3) `getValidAmounts` returns
`floor = 9007199254740990` and `ceil = 9007199254740992`: the sum `floor + 3` is rounded,
`ceil` is no multiple of 3 and is not `floor + 3`. -/
theorem nearest_bounds_fail_beyond_safe_integers :
    (getMinAvailableValue [{ value := 3, count := some 1 }]).result = 3 ∧
    (getValidAmounts 9007199254740991 [{ value := 3, count := some 1 }]).result
      = { floor := 9007199254740990, ceil := 9007199254740992 } ∧
    ¬ ((3 : Int) ∣ 9007199254740992) :=
  ⟨by decide, by decide, by decide⟩

/-- C12 as amended (nearest bounds): for every amount `≥ 0` and every inventory whose
smallest usable value `m` is `> 0`, with `amount + m` at most `Number.MAX_SAFE_INTEGER`,
`getValidAmounts` returns as `floor` the greatest multiple of `m` that is `≤ amount` and
as `ceil` the least multiple of `m` that is `> amount`; moreover `ceil = floor + m`, and
`floor = amount` exactly when `amount` is a multiple of `m`. -/
theorem getValidAmounts_nearest_bounds (amount : Int) (banknotes : List Banknote)
    (hamount : 0 ≤ amount) (hm : 0 < (getMinAvailableValue banknotes).result)
    (hsafe : amount + (getMinAvailableValue banknotes).result ≤ maxSafeInteger) :
    ((getMinAvailableValue banknotes).result ∣ (getValidAmounts amount banknotes).result.floor ∧
      (getValidAmounts amount banknotes).result.floor ≤ amount ∧
      ∀ k : Int, (getMinAvailableValue banknotes).result ∣ k → k ≤ amount →
        k ≤ (getValidAmounts amount banknotes).result.floor) ∧
    ((getMinAvailableValue banknotes).result ∣ (getValidAmounts amount banknotes).result.ceil ∧
      amount < (getValidAmounts amount banknotes).result.ceil ∧
      ∀ k : Int, (getMinAvailableValue banknotes).result ∣ k → amount < k →
        (getValidAmounts amount banknotes).result.ceil ≤ k) ∧
    (getValidAmounts amount banknotes).result.ceil
      = (getValidAmounts amount banknotes).result.floor
        + (getMinAvailableValue banknotes).result ∧
    ((getValidAmounts amount banknotes).result.floor = amount ↔
      (getMinAvailableValue banknotes).result ∣ amount) := by
  rw [getValidAmounts_result hamount hm hsafe]
  simp only []
  have hdvd := dvd_sub_emod amount (getMinAvailableValue banknotes).result
  have h0 := Int.emod_nonneg amount (ne_of_gt hm)
  have h1 := Int.emod_lt_of_pos amount hm
  refine ⟨⟨hdvd, by omega, fun k hk hle => multiple_le_floor hm hk hle⟩,
    ⟨Int.dvd_add hdvd (Int.dvd_refl _), by omega, fun k hk hlt => ceil_le_multiple hm hk hlt⟩,
    trivial, ?_⟩
  constructor
  · intro h
    rw [← h]
    exact hdvd
  · intro h
    have := Int.emod_eq_zero_of_dvd h
    omega

/-- Witness of C12 as amended: the amount 5050 on `atmList[0]`, whose smallest usable
value is 100, gives `floor = 5000` and `ceil = 5100`. -/
theorem getValidAmounts_nearest_bounds_witness :
    (getValidAmounts 5050 (atmList.getD 0 [])).result = { floor := 5000, ceil := 5100 } ∧
    (getValidAmounts 5050 (atmList.getD 0 [])).result.ceil
      = (getValidAmounts 5050 (atmList.getD 0 [])).result.floor
        + (getMinAvailableValue (atmList.getD 0 [])).result :=
  ⟨by decide,
    (getValidAmounts_nearest_bounds 5050 (atmList.getD 0 []) (by decide) (by decide)
      (by decide)).2.2.1⟩

/-- C13, the claim as stated fails: for the amount 50 on `atmList[0]` (smallest usable
value 100) `getValidAmounts` returns `floor = 0`, and `isValidAmount(0, inventory)` is
false; and beyond the safe integers, for the amount 9007199254740991 on `[{3, 1}]` it
returns `ceil = 9007199254740992`, which is no multiple of 3, so `isValidAmount` of it is
false. -/
theorem getValidAmounts_floor_not_valid :
    ((getValidAmounts 50 (atmList.getD 0 [])).result = { floor := 0, ceil := 100 } ∧
      (isValidAmount (getValidAmounts 50 (atmList.getD 0 [])).result.floor
        (atmList.getD 0 [])).result = false) ∧
    ((getValidAmounts 9007199254740991 [{ value := 3, count := some 1 }]).result.ceil
        = 9007199254740992 ∧
      (isValidAmount
        (getValidAmounts 9007199254740991 [{ value := 3, count := some 1 }]).result.ceil
        [{ value := 3, count := some 1 }]).result = false) :=
  ⟨⟨by decide, by decide⟩, ⟨by decide, by decide⟩⟩

/-- C13 as amended (suggested amounts): for every amount `≥ 0` and every inventory with
positive values and at least one usable record, with `amount + m` at most
`Number.MAX_SAFE_INTEGER` for the smallest usable value `m`, the `ceil` returned by
`getValidAmounts` is a valid amount, and so is the `floor` when the amount is at least
`m`; for a smaller amount the `floor` is 0, which is not a valid amount. -/
theorem getValidAmounts_suggestions_valid (amount : Int) (banknotes : List Banknote)
    (hamount : 0 ≤ amount) (hvalue : ∀ b ∈ banknotes, 0 < b.value)
    (husable : ∃ b ∈ banknotes, 0 < getAvailableCount b)
    (hsafe : amount + (getMinAvailableValue banknotes).result ≤ maxSafeInteger) :
    (isValidAmount (getValidAmounts amount banknotes).result.ceil banknotes).result = true ∧
    ((getMinAvailableValue banknotes).result ≤ amount →
      (isValidAmount (getValidAmounts amount banknotes).result.floor banknotes).result
        = true) ∧
    (amount < (getMinAvailableValue banknotes).result →
      (getValidAmounts amount banknotes).result.floor = 0 ∧
      (isValidAmount (getValidAmounts amount banknotes).result.floor banknotes).result
        = false) := by
  have hm := getMinAvailableValue_pos hvalue husable
  rw [getValidAmounts_result hamount hm hsafe]
  simp only []
  have hdvd := dvd_sub_emod amount (getMinAvailableValue banknotes).result
  have h0 := Int.emod_nonneg amount (ne_of_gt hm)
  have h1 := Int.emod_lt_of_pos amount hm
  refine ⟨?_, ?_, ?_⟩
  · rw [isValidAmount_result_iff]
    exact ⟨by omega, hm, Int.dvd_add hdvd (Int.dvd_refl _)⟩
  · intro hle
    rw [isValidAmount_result_iff]
    have := multiple_le_floor hm (Int.dvd_refl _) hle
    exact ⟨by omega, hm, hdvd⟩
  · intro hlt
    have hz : amount - amount % (getMinAvailableValue banknotes).result = 0 := by
      rw [Int.emod_eq_of_lt hamount hlt]
      omega
    refine ⟨hz, ?_⟩
    rw [hz]
    cases hv : (isValidAmount 0 banknotes).result with
    | false => rfl
    | true =>
      have := ((isValidAmount_result_iff 0 banknotes).mp hv).1
      omega

/-- Witness of C13 as amended: on `atmList[0]` the amount 5050 has the valid suggestions
5100 and 5000, and the amount 50 has the valid `ceil` 100 and the `floor` 0. -/
theorem getValidAmounts_suggestions_valid_witness :
    (isValidAmount (getValidAmounts 5050 (atmList.getD 0 [])).result.ceil
      (atmList.getD 0 [])).result = true ∧
    (isValidAmount (getValidAmounts 5050 (atmList.getD 0 [])).result.floor
      (atmList.getD 0 [])).result = true ∧
    ((getValidAmounts 50 (atmList.getD 0 [])).result.floor = 0 ∧
      (isValidAmount (getValidAmounts 50 (atmList.getD 0 [])).result.floor
        (atmList.getD 0 [])).result = false) :=
  ⟨(getValidAmounts_suggestions_valid 5050 (atmList.getD 0 []) (by decide) (by decide)
      ⟨{ value := 100, count := some 40 }, by decide, by decide⟩ (by decide)).1,
   (getValidAmounts_suggestions_valid 5050 (atmList.getD 0 []) (by decide) (by decide)
      ⟨{ value := 100, count := some 40 }, by decide, by decide⟩ (by decide)).2.1 (by decide),
   (getValidAmounts_suggestions_valid 50 (atmList.getD 0 []) (by decide) (by decide)
      ⟨{ value := 100, count := some 40 }, by decide, by decide⟩ (by decide)).2.2 (by decide)⟩

/-- C18, the claim as stated fails beyond the safe integers: the amount 13510798882111490
on `[{3, 4503599627370497}, {1, 2}]` leaves the remainder −2 although the amount is
`≥ 0`; and for the amount 9007199254740998 on `[{2, 1}, {3, 1}, {4503599627370496, 2}]`
the remainder after the last record is 1, yet `getBanknotes` returns a plan. -/
theorem remainder_check_fails_beyond_safe_integers :
    (buildPlan 13510798882111490 [{ value := 3, count := some 4503599627370497 },
      { value := 1, count := some 2 }]).remainder = -2 ∧
    (buildPlan 9007199254740998 [{ value := 2, count := some 1 },
      { value := 3, count := some 1 },
      { value := 4503599627370496, count := some 2 }]).remainder = 1 ∧
    (getBanknotes 9007199254740998 [{ value := 2, count := some 1 },
      { value := 3, count := some 1 }, { value := 4503599627370496, count := some 2 }]).result
      = Except.ok [{ value := 4503599627370496, count := some 2 },
          { value := 3, count := some 1 }, { value := 2, count := some 1 }] :=
  ⟨by decide, by decide, by rfl⟩

/-- C18 as amended (verify-after equals remainder check): for an inventory with positive
values and every amount up to `Number.MAX_SAFE_INTEGER`, after every number `n` of steps
of the reduce in `getBanknotes` the total of the plan so far plus the running remainder
equals `requestedAmount`, and the remainder is `≥ 0` when `requestedAmount ≥ 0`; hence
`getBanknotes` throws if and only if the remainder left after the last record is not 0. -/
theorem getBanknotes_remainder_check (requestedAmount : Int)
    (availableBanknotes : List Banknote)
    (hvalue : ∀ b ∈ availableBanknotes, 0 < b.value)
    (hsafe : requestedAmount ≤ maxSafeInteger) :
    (∀ n : Nat,
      planTotal (((arraySort sortBanknotesByDesc availableBanknotes).take n).foldl reducer
          { banknotes := [], remainder := requestedAmount }).banknotes
        + (((arraySort sortBanknotesByDesc availableBanknotes).take n).foldl reducer
          { banknotes := [], remainder := requestedAmount }).remainder = requestedAmount ∧
      (0 ≤ requestedAmount →
        0 ≤ (((arraySort sortBanknotesByDesc availableBanknotes).take n).foldl reducer
          { banknotes := [], remainder := requestedAmount }).remainder)) ∧
    ((getBanknotes requestedAmount availableBanknotes).result
        = Except.error "Not enought banknotes" ↔
      (buildPlan requestedAmount availableBanknotes).remainder ≠ 0) := by
  refine ⟨?_, getBanknotes_error_iff requestedAmount availableBanknotes hvalue hsafe⟩
  intro n
  have hprefix : ∀ b ∈ (arraySort sortBanknotesByDesc availableBanknotes).take n,
      0 < b.value :=
    fun b hb => hvalue b (mem_arraySort.mp (List.mem_of_mem_take hb))
  rw [foldl_reducer_eq_exact _ ⟨[], requestedAmount⟩ hprefix hsafe]
  constructor
  · have h := foldl_reducerExact_total
      ((arraySort sortBanknotesByDesc availableBanknotes).take n) ⟨[], requestedAmount⟩
    simpa [planTotal] using h
  · intro hR
    exact foldl_reducerExact_remainder_nonneg _ _ hprefix hR

/-- Witness of C18 as amended: 5400 on `atmList[2]` leaves the remainder 300 and throws;
after two steps the plan `[{5000, 1}]` and the remainder 400 add up to 5400. -/
theorem getBanknotes_remainder_check_witness :
    (buildPlan 5400 (atmList.getD 2 [])).remainder = 300 ∧
    (getBanknotes 5400 (atmList.getD 2 [])).result = Except.error "Not enought banknotes" ∧
    planTotal (((arraySort sortBanknotesByDesc (atmList.getD 2 [])).take 2).foldl reducer
        { banknotes := [], remainder := 5400 }).banknotes
      + (((arraySort sortBanknotesByDesc (atmList.getD 2 [])).take 2).foldl reducer
        { banknotes := [], remainder := 5400 }).remainder = 5400 :=
  ⟨by decide,
   (getBanknotes_remainder_check 5400 (atmList.getD 2 []) (by decide) (by decide)).2.mpr
     (by decide),
   ((getBanknotes_remainder_check 5400 (atmList.getD 2 []) (by decide) (by decide)).1 2).1⟩

/-- C15, the claim as stated fails beyond the safe integers: for the amount
13510798882111490 on `[{3, 4503599627370497}, {1, 2}]` the quotient `r / 3` is rounded up
before the floor is taken, so `getBanknotes` builds the plan `[{3, 4503599627370497}]`,
while the greedy walk takes `min(floor(r / 3), u) = 4503599627370496` banknotes of 3 and
then two of 1. -/
theorem greedy_step_fails_beyond_safe_integers :
    (buildPlan 13510798882111490 [{ value := 3, count := some 4503599627370497 },
      { value := 1, count := some 2 }]).banknotes
      = [{ value := 3, count := some 4503599627370497 }] ∧
    (greedyWalk 13510798882111490 [{ value := 3, count := some 4503599627370497 },
      { value := 1, count := some 2 }]).1
      = [{ value := 3, count := some 4503599627370496 }, { value := 1, count := some 2 }] := by
  refine ⟨by decide, ?_⟩
  have h := foldl_reducerExact_eq_greedyWalk
    [{ value := 3, count := some 4503599627370497 }, { value := 1, count := some 2 }]
    ⟨[], 13510798882111490⟩ (by decide)
  have h2 : List.foldl reducerExact ⟨[], 13510798882111490⟩
      [{ value := 3, count := some 4503599627370497 }, { value := 1, count := some 2 }]
      = ⟨[{ value := 3, count := some 4503599627370496 }, { value := 1, count := some 2 }],
          0⟩ := by decide
  rw [h2] at h
  injection h with h3 _
  simpa using h3.symm

/-- C15 as amended (greedy step): for an inventory with positive, pairwise distinct values
and every amount up to `Number.MAX_SAFE_INTEGER`, the plan built by `getBanknotes` and
the remainder it leaves are exactly those of the greedy walk of the specification over
the records in strictly descending order of value (`sorted` is that arrangement of the
inventory). -/
theorem getBanknotes_greedy (requestedAmount : Int)
    (availableBanknotes sorted : List Banknote)
    (hvalue : ∀ b ∈ availableBanknotes, 0 < b.value)
    (hperm : sorted.Perm availableBanknotes)
    (hsorted : sorted.Pairwise (fun a b => b.value < a.value))
    (hsafe : requestedAmount ≤ maxSafeInteger) :
    (buildPlan requestedAmount availableBanknotes).banknotes
      = (greedyWalk requestedAmount sorted).1 ∧
    (buildPlan requestedAmount availableBanknotes).remainder
      = (greedyWalk requestedAmount sorted).2 := by
  have hnodup : (availableBanknotes.map Banknote.value).Nodup := by
    have h1 : (sorted.map Banknote.value).Nodup := by
      rw [List.Nodup, List.pairwise_map]
      exact hsorted.imp (fun h => ne_of_gt h)
    exact (hperm.map Banknote.value).nodup_iff.mp h1
  have heq : arraySort sortBanknotesByDesc availableBanknotes = sorted :=
    eq_of_perm_of_desc ((arraySort_perm _ availableBanknotes).trans hperm.symm)
      (arraySort_desc_strict availableBanknotes hnodup) hsorted
  rw [buildPlan_eq_exact requestedAmount availableBanknotes hvalue hsafe, heq,
    foldl_reducerExact_eq_greedyWalk sorted _ (fun b hb => hvalue b (hperm.mem_iff.mp hb))]
  simp

/-- Witness of C15 as amended: the amount 5400 on `atmList[4]` given in ascending order;
the walk runs over `atmList[4]` itself, which is in descending order. -/
theorem getBanknotes_greedy_witness :
    (buildPlan 5400 (atmList.getD 4 []).reverse).banknotes
      = (greedyWalk 5400 (atmList.getD 4 [])).1 ∧
    (buildPlan 5400 (atmList.getD 4 []).reverse).remainder
      = (greedyWalk 5400 (atmList.getD 4 [])).2 :=
  getBanknotes_greedy 5400 (atmList.getD 4 []).reverse (atmList.getD 4 []) (by decide)
    (List.reverse_perm _).symm (by decide) (by decide)

/-- C19, the claim as stated fails beyond the safe integers: `[{3, 4503599627370497},
{1, 2}]` has positive distinct values and 1 divides 3, the amount 13510798882111490 is
covered by 4503599627370496 banknotes of 3 and two of 1, and yet `getBanknotes` throws. -/
theorem chain_incomplete_beyond_safe_integers :
    (∀ a ∈ ([{ value := 3, count := some 4503599627370497 },
        { value := 1, count := some 2 }] : List Banknote),
      ∀ b ∈ ([{ value := 3, count := some 4503599627370497 },
        { value := 1, count := some 2 }] : List Banknote),
      a.value < b.value → a.value ∣ b.value) ∧
    Coverable 13510798882111490 [{ value := 3, count := some 4503599627370497 },
      { value := 1, count := some 2 }] ∧
    (getBanknotes 13510798882111490 [{ value := 3, count := some 4503599627370497 },
      { value := 1, count := some 2 }]).result = Except.error "Not enought banknotes" :=
  ⟨by decide,
   ⟨[4503599627370496, 2],
     List.Forall₂.cons (by decide) (List.Forall₂.cons (by decide) List.Forall₂.nil),
     by decide⟩,
   by rfl⟩

/-- C19 as amended (greedy is complete on divisibility chains): for an inventory with
positive values in which each value divides every larger value, and every amount up to
`Number.MAX_SAFE_INTEGER` that some choice of counts within the usable counts covers
exactly, `getBanknotes` does not throw: it returns the plan it built, whose total is the
amount. -/
theorem getBanknotes_complete_on_chains (requestedAmount : Int)
    (availableBanknotes : List Banknote)
    (hvalue : ∀ b ∈ availableBanknotes, 0 < b.value)
    (hchain : ∀ a ∈ availableBanknotes, ∀ b ∈ availableBanknotes,
      a.value < b.value → a.value ∣ b.value)
    (hcover : Coverable requestedAmount availableBanknotes)
    (hsafe : requestedAmount ≤ maxSafeInteger) :
    ∃ plan, (getBanknotes requestedAmount availableBanknotes).result = Except.ok plan ∧
      planTotal plan = requestedAmount := by
  have hok := getBanknotes_ok_of_coverable requestedAmount availableBanknotes hvalue hchain
    hsafe hcover
  refine ⟨_, hok, ?_⟩
  have hmax := (getBanknotes_result_ok hok).1
  rw [buildPlan_getMaxAmount requestedAmount availableBanknotes hvalue hsafe] at hmax
  exact hmax

/-- Witness of C19 as amended: `atmList[4]` is a divisibility chain (100, 200, 1000, 5000)
and 5400 is covered by one 5000, one 200 and two 100. -/
theorem getBanknotes_complete_on_chains_witness :
    ∃ plan, (getBanknotes 5400 (atmList.getD 4 [])).result = Except.ok plan ∧
      planTotal plan = 5400 :=
  getBanknotes_complete_on_chains 5400 (atmList.getD 4 []) (by decide) (by decide)
    ⟨[1, 0, 1, 2],
      List.Forall₂.cons (by decide) (List.Forall₂.cons (by decide)
        (List.Forall₂.cons (by decide) (List.Forall₂.cons (by decide) List.Forall₂.nil))),
      by decide⟩ (by decide)

end Atm
